import Mathlib

/-!
Verification of the markdown-to-PDF document pipeline of this repository
(files `backend/markdown_utils.py` and `backend/pdf_generator.py`).

Strings are modelled as lists of characters (`PyStr`).  The Python string
operations used by the source (`str.strip`, `str.split`, `str.lower`,
`re.sub` with the concrete patterns appearing in the source, `re.findall`
for the mermaid-block pattern) are given executable models below, each one
translated from the specific call site in the source.  Python `re.sub`
scans left to right, replaces non-overlapping matches and resumes after
each match; the scanners below mirror that, using the input length as fuel
(every match consumes at least one character, so the fuel never runs out).
Machine floats of the image-scaling code are modelled as exact rationals.
-/

/-- A Python string, modelled as its list of characters. -/
abbrev PyStr := List Char

/-- The backtick character (written via its code point). -/
def btick : Char := Char.ofNat 96

/-- Python `str.strip()` whitespace class restricted to ASCII:
space, tab, newline, carriage return, vertical tab, form feed. -/
def pyIsSpace (c : Char) : Bool :=
  decide (c = ' ') || decide (c = Char.ofNat 9) || decide (c = Char.ofNat 10) ||
  decide (c = Char.ofNat 13) || decide (c = Char.ofNat 11) || decide (c = Char.ofNat 12)

/-- Python `str.strip()`: remove leading and trailing whitespace. -/
def pyStrip (s : PyStr) : PyStr :=
  ((s.dropWhile pyIsSpace).reverse.dropWhile pyIsSpace).reverse

/-- Python `str.split(sep)` for a one-character separator.
`splitOnChar c ""` is `[""]`, as in Python. -/
def splitOnChar (sep : Char) : PyStr → List PyStr
  | [] => [[]]
  | c :: cs =>
    if c = sep then [] :: splitOnChar sep cs
    else
      match splitOnChar sep cs with
      | [] => [[c]]
      | p :: ps => (c :: p) :: ps

/-- Python `sep.join(pieces)`. -/
def joinSep (sep : PyStr) : List PyStr → PyStr
  | [] => []
  | [x] => x
  | x :: y :: rest => x ++ sep ++ joinSep sep (y :: rest)

/-- `"\n".join(lines)`. -/
def joinLines (ls : List PyStr) : PyStr := joinSep [Char.ofNat 10] ls

/-- `content.split('\n')`. -/
def splitLines (s : PyStr) : List PyStr := splitOnChar (Char.ofNat 10) s

/-- Python substring test `pat in s`. -/
def strContains (s pat : PyStr) : Bool :=
  match s with
  | [] => pat.isEmpty
  | c :: tail => pat.isPrefixOf (c :: tail) || strContains tail pat

/-- Python `str.lower()` on the ASCII range (upper-case letters map down;
other characters are left in place, and any character whose lower case is
outside `a-z` is removed by the following filtering step anyway). -/
def pyLowerChar (c : Char) : Char :=
  if 'A' ≤ c ∧ c ≤ 'Z' then Char.ofNat (c.toNat + 32) else c

/-- `str.lower()` on a whole string. -/
def pyLower (s : PyStr) : PyStr := s.map pyLowerChar

/-! ### Slug generation (`MarkdownParser._create_heading_id`) -/

/-- Characters kept by `re.sub(r'[^a-z0-9\s\-]', '', ...)`. -/
def slugKeep (c : Char) : Bool :=
  (decide ('a' ≤ c) && decide (c ≤ 'z')) || (decide ('0' ≤ c) && decide (c ≤ '9')) ||
  pyIsSpace c || decide (c = '-')

/-- Worker for `collapseRuns`: the flag records whether the previous
character belonged to the class (so the run was already replaced). -/
def collapseRunsGo (p : Char → Bool) (r : Char) : Bool → PyStr → PyStr
  | _, [] => []
  | inRun, c :: cs =>
    if p c then
      if inRun then collapseRunsGo p r true cs
      else r :: collapseRunsGo p r true cs
    else c :: collapseRunsGo p r false cs

/-- `re.sub(p+, r, ...)` for a character class `p`: every maximal run of
characters satisfying `p` is replaced by the single character `r`.
Models both `re.sub(r'\s+', '-', ...)` and `re.sub(r'-+', '-', ...)`. -/
def collapseRuns (p : Char → Bool) (r : Char) (s : PyStr) : PyStr :=
  collapseRunsGo p r false s

/-- Remove a trailing run of characters satisfying `p`. -/
def dropTrailing (p : Char → Bool) : PyStr → PyStr
  | [] => []
  | c :: cs =>
    match dropTrailing p cs with
    | [] => if p c then [] else [c]
    | r => c :: r

/-- Python `str.strip('-')`. -/
def stripDash (s : PyStr) : PyStr :=
  dropTrailing (fun c => decide (c = '-')) (s.dropWhile (fun c => decide (c = '-')))

/-- `MarkdownParser._create_heading_id`: lower-case, drop characters outside
`[a-z0-9\s-]`, collapse whitespace runs to single hyphens, collapse hyphen
runs, strip outer hyphens, and fall back to `"heading"` if empty. -/
def createHeadingId (title : PyStr) : PyStr :=
  let a := (title.map pyLowerChar).filter slugKeep
  let b := collapseRuns pyIsSpace '-' a
  let c := collapseRuns (fun x => decide (x = '-')) '-' b
  let d := stripDash c
  if d.isEmpty then "heading".toList else d

/-- Character class of a finished slug: lower-case letter, digit or hyphen. -/
def slugChar (c : Char) : Bool :=
  (decide ('a' ≤ c) && decide (c ≤ 'z')) || (decide ('0' ≤ c) && decide (c ≤ '9')) ||
  decide (c = '-')

/-- Whether the string contains two adjacent hyphens. -/
def hasDoubleDash : PyStr → Bool
  | [] => false
  | [_] => false
  | a :: b :: rest => (decide (a = '-') && decide (b = '-')) || hasDoubleDash (b :: rest)

/-- Whether the first character is a hyphen. -/
def headIsDash : PyStr → Bool
  | [] => false
  | c :: _ => decide (c = '-')

/-- Whether the last character is a hyphen. -/
def lastIsDash (s : PyStr) : Bool := headIsDash s.reverse

/-! ### Heading extraction (`MarkdownParser.extract_headings`) -/

/-- A parsed heading: level, stripped title, slug id, source offset. -/
structure Heading where
  level : Nat
  title : PyStr
  hid : PyStr
  position : Nat
deriving DecidableEq

/-- One line matched against `^(#{1,6})\s+(.+)$`: between one and six
leading hash characters, then at least one whitespace character, then at
least one further character; the reported title is the stripped remainder
(the regex groups plus the `.strip()` call in the source compose to that). -/
def matchHeadingLine (l : PyStr) : Option (Nat × PyStr) :=
  let hashes := l.takeWhile (fun c => decide (c = '#'))
  let k := hashes.length
  if 1 ≤ k ∧ k ≤ 6 then
    match l.drop k with
    | [] => none
    | c :: cs => if pyIsSpace c ∧ cs ≠ [] then some (k, pyStrip (c :: cs)) else none
  else none

/-- Walk the lines accumulating character offsets (`match.start()` of the
multiline regex is the offset of the start of the matching line). -/
def extractHeadingsGo : List PyStr → Nat → List Heading
  | [], _ => []
  | l :: ls, pos =>
    match matchHeadingLine l with
    | some (k, t) => ⟨k, t, createHeadingId t, pos⟩ :: extractHeadingsGo ls (pos + l.length + 1)
    | none => extractHeadingsGo ls (pos + l.length + 1)

/-- `MarkdownParser.extract_headings`. -/
def extractHeadings (content : PyStr) : List Heading :=
  extractHeadingsGo (splitLines content) 0

/-! ### Table of contents (`MarkdownParser.generate_toc_markdown`) -/

/-- The generic-title filter shared by `generate_toc_markdown` and
`PDFGenerator._create_dynamic_toc`: a heading is skipped iff its level is 1
and its lower-cased title contains one of the four fixed words. -/
def tocExcluded (h : Heading) : Bool :=
  decide (h.level = 1) &&
    (strContains (pyLower h.title) ("technical".toList) ||
     strContains (pyLower h.title) ("design".toList) ||
     strContains (pyLower h.title) ("document".toList) ||
     strContains (pyLower h.title) ("title".toList))

/-- One TOC line: `"  " * (level-1) + "- [title](#id)"`. -/
def fmtTocEntry (h : Heading) : PyStr :=
  List.replicate (2 * (h.level - 1)) ' ' ++ "- [".toList ++ h.title ++ "](#".toList ++
    h.hid ++ ")".toList

/-- The loop of `generate_toc_markdown`, with its `continue` for excluded
headings. -/
def tocLoop : List Heading → List PyStr
  | [] => []
  | h :: hs => if tocExcluded h then tocLoop hs else fmtTocEntry h :: tocLoop hs

/-- `MarkdownParser.generate_toc_markdown`. -/
def generateTocMarkdown (content : PyStr) : PyStr :=
  let hs := extractHeadings content
  if hs.isEmpty then []
  else joinLines ("# Table of Contents\n".toList :: tocLoop hs) ++ [Char.ofNat 10]

/-! ### Table recognition (`_is_table_row`, `_is_table_separator`, `_parse_table_row`) -/

/-- `MarkdownParser._is_table_row` (called on already-stripped lines):
starts with a pipe, ends with a pipe, and `line[1:-1]` contains a pipe. -/
def isTableRow (s : PyStr) : Bool :=
  decide (s.head? = some '|') && decide (s.getLast? = some '|') &&
    decide ('|' ∈ s.tail.dropLast)

/-- One separator cell: after stripping, non-empty and made of `-` / `:`. -/
def isSepCell (c : PyStr) : Bool :=
  let c2 := pyStrip c
  !c2.isEmpty && c2.all (fun x => decide (x = '-') || decide (x = ':'))

/-- `MarkdownParser._is_table_separator` (strips its argument itself). -/
def isTableSepStr (l : PyStr) : Bool :=
  let s := pyStrip l
  decide (s.head? = some '|') && decide (s.getLast? = some '|') &&
    (splitOnChar '|' s.tail.dropLast).all isSepCell

/-- `MarkdownParser._parse_table_row`: drop one outer pipe from each end,
split the rest on pipes, strip every cell. -/
def parseTableRow (s : PyStr) : List PyStr :=
  let s1 := if s.head? = some '|' then s.tail else s
  let s2 := if s1.getLast? = some '|' then s1.dropLast else s1
  (splitOnChar '|' s2).map pyStrip

/-- A parsed markdown table (the spec TableBlock); the source also keeps a
redundant `raw_data` field equal to `headers :: rows`. -/
structure TableBlock where
  headers : List PyStr
  rows : List (List PyStr)
deriving DecidableEq

/-! ### `MarkdownParser.parse_markdown_tables` -/

/-- The inner row loop: consume consecutive table-row lines, returning the
parsed rows and the remaining lines. -/
def grabRows : List PyStr → List (List PyStr) × List PyStr
  | [] => ([], [])
  | l :: ls =>
    if isTableRow (pyStrip l) then
      let p := grabRows ls
      (parseTableRow (pyStrip l) :: p.1, p.2)
    else ([], l :: ls)

/-- Skip one separator line after the header if present. -/
def skipSeparator : List PyStr → List PyStr
  | [] => []
  | l :: ls => if isTableSepStr l then ls else l :: ls

/-- The outer `while i < len(lines)` loop of `parse_markdown_tables`,
modelled with explicit fuel bounding the number of iterations (the index
advances by at least one per iteration, so `lines.length + 1` always
suffices; `none` means the fuel ran out).  A table is kept only when it
has a header and at least one data row (`len(table_data) >= 2`). -/
def parseTablesLoopF : Nat → List PyStr → Option (List TableBlock)
  | 0, _ => none
  | _ + 1, [] => some []
  | f + 1, l :: ls =>
    if isTableRow (pyStrip l) then
      let header := parseTableRow (pyStrip l)
      let p := grabRows (skipSeparator ls)
      match parseTablesLoopF f p.2 with
      | none => none
      | some ts => some (if p.1.isEmpty then ts else ⟨header, p.1⟩ :: ts)
    else parseTablesLoopF f ls

/-- `MarkdownParser.parse_markdown_tables`. -/
def parseMarkdownTables (content : PyStr) : List TableBlock :=
  let ls := splitLines content
  (parseTablesLoopF (ls.length + 1) ls).getD []

/-! ### Inline markdown rewriting

`_clean_markdown_line` applies, in order,
`re.sub(r'\*\*(.*?)\*\*', '<b>...')`, `re.sub(r'\*(.*?)\*', '<i>...')`
and the backtick pattern to `<code>...`; `_process_inline_markdown`
applies `\*\*(.+?)\*\*`, `(?<!\*)\*([^*]+)\*(?!\*)`, the one-backtick
pattern, the link pattern and `~~(.+?)~~`.  Each model scanner mirrors
`re.sub`: try a match at each position left to right, replace, resume
after the match. -/

/-- Lazy `(.*?)close`: content is the shortest run of non-newline
characters followed by the literal `close`; returns content and the rest
after `close`. -/
def grabLazy (close : PyStr) : PyStr → Option (PyStr × PyStr)
  | [] => none
  | c :: cs =>
    if close.isPrefixOf (c :: cs) then some ([], (c :: cs).drop close.length)
    else if c = Char.ofNat 10 then none
    else
      match grabLazy close cs with
      | some p => some (c :: p.1, p.2)
      | none => none

/-- Lazy `(.+?)close`: as `grabLazy` but content has at least one character. -/
def grabLazy1 (close : PyStr) : PyStr → Option (PyStr × PyStr)
  | [] => none
  | c :: cs =>
    if c = Char.ofNat 10 then none
    else
      match grabLazy close cs with
      | some p => some (c :: p.1, p.2)
      | none => none

/-- A matcher tries to match one pattern occurrence at the current
position; it receives the previous character of the original string (for
look-behind) and returns the replacement text, the last character of the
matched span, and the rest of the string after the match. -/
abbrev InlineMatch := Option Char → PyStr → Option (PyStr × Char × PyStr)

/-- The `re.sub` scanner: walk the string, emitting replacements where the
matcher fires and resuming after each match.  Fuel is the string length
(each step consumes at least one character). -/
def scanSub (m : InlineMatch) : Nat → Option Char → PyStr → PyStr
  | 0, _, s => s
  | _ + 1, _, [] => []
  | f + 1, prev, c :: cs =>
    match m prev (c :: cs) with
    | some r => r.1 ++ scanSub m f (some r.2.1) r.2.2
    | none => c :: scanSub m f (some c) cs

/-- Whether the matcher fires at any position of the string. -/
def hasMatch (m : InlineMatch) : Nat → Option Char → PyStr → Bool
  | 0, _, _ => false
  | _ + 1, _, [] => false
  | f + 1, prev, c :: cs => (m prev (c :: cs)).isSome || hasMatch m f (some c) cs

/-- Run one `re.sub` pass over a whole string. -/
def runSub (m : InlineMatch) (s : PyStr) : PyStr := scanSub m s.length none s

/-- `\*\*(.*?)\*\*` to `<b>\1</b>`. -/
def tryBoldLazy : InlineMatch := fun _ s =>
  if ("**".toList).isPrefixOf s then
    match grabLazy ("**".toList) (s.drop 2) with
    | some p => some ("<b>".toList ++ p.1 ++ "</b>".toList, '*', p.2)
    | none => none
  else none

/-- `\*(.*?)\*` to `<i>\1</i>`. -/
def tryItalLazy : InlineMatch := fun _ s =>
  if (['*']).isPrefixOf s then
    match grabLazy ['*'] (s.drop 1) with
    | some p => some ("<i>".toList ++ p.1 ++ "</i>".toList, '*', p.2)
    | none => none
  else none

/-- Single-backtick lazy pattern to `<code>\1</code>`. -/
def tryCodeLazy : InlineMatch := fun _ s =>
  if ([btick]).isPrefixOf s then
    match grabLazy [btick] (s.drop 1) with
    | some p => some ("<code>".toList ++ p.1 ++ "</code>".toList, btick, p.2)
    | none => none
  else none

/-- `\*\*(.+?)\*\*` to `<b>\1</b>`. -/
def tryBold2 : InlineMatch := fun _ s =>
  if ("**".toList).isPrefixOf s then
    match grabLazy1 ("**".toList) (s.drop 2) with
    | some p => some ("<b>".toList ++ p.1 ++ "</b>".toList, '*', p.2)
    | none => none
  else none

/-- `(?<!\*)\*([^*]+)\*(?!\*)` to `<i>\1</i>`. -/
def tryItal2 : InlineMatch := fun prev s =>
  match s with
  | [] => none
  | c :: cs =>
    if c = '*' ∧ prev ≠ some '*' then
      let ct := cs.takeWhile (fun x => decide (x ≠ '*'))
      if ct.isEmpty then none
      else
        match cs.drop ct.length with
        | '*' :: rest =>
          if rest.head? = some '*' then none
          else some ("<i>".toList ++ ct ++ "</i>".toList, '*', rest)
        | _ => none
    else none

/-- One-backtick `([^`]+)` pattern to a Courier bold font span. -/
def tryCode2 : InlineMatch := fun _ s =>
  match s with
  | [] => none
  | c :: cs =>
    if c = btick then
      let ct := cs.takeWhile (fun x => decide (x ≠ btick))
      if ct.isEmpty then none
      else
        match cs.drop ct.length with
        | b :: rest =>
          if b = btick then
            some ("<font name=\"Courier\"><b>".toList ++ ct ++ "</b></font>".toList, btick, rest)
          else none
        | _ => none
    else none

/-- `\[([^\]]+)\]\(([^)]+)\)` replaced by the label text alone. -/
def tryLink : InlineMatch := fun _ s =>
  match s with
  | '[' :: cs =>
    let t := cs.takeWhile (fun x => decide (x ≠ ']'))
    if t.isEmpty then none
    else
      match cs.drop t.length with
      | ']' :: '(' :: cs2 =>
        let u := cs2.takeWhile (fun x => decide (x ≠ ')'))
        if u.isEmpty then none
        else
          match cs2.drop u.length with
          | ')' :: rest => some (t, ')', rest)
          | _ => none
      | _ => none
  | _ => none

/-- `~~(.+?)~~` to `<strike>\1</strike>`. -/
def tryStrike : InlineMatch := fun _ s =>
  if ("~~".toList).isPrefixOf s then
    match grabLazy1 ("~~".toList) (s.drop 2) with
    | some p => some ("<strike>".toList ++ p.1 ++ "</strike>".toList, '~', p.2)
    | none => none
  else none

/-- `MarkdownParser._clean_markdown_line`: bold, then italic, then code. -/
def cleanMarkdownLine (l : PyStr) : PyStr :=
  runSub tryCodeLazy (runSub tryItalLazy (runSub tryBoldLazy l))

/-- `PDFGenerator._process_inline_markdown`: bold, italic, code, link,
strikethrough, in that order. -/
def processInlineMarkdown (t : PyStr) : PyStr :=
  runSub tryStrike (runSub tryLink (runSub tryCode2 (runSub tryItal2 (runSub tryBold2 t))))

/-- No bold / italic / inline-code / link / strikethrough construct occurs
in the line, for any of the regexes used by the two rewriting functions. -/
def noConstruct (s : PyStr) : Bool :=
  !(hasMatch tryBoldLazy s.length none s) && !(hasMatch tryItalLazy s.length none s) &&
  !(hasMatch tryCodeLazy s.length none s) && !(hasMatch tryBold2 s.length none s) &&
  !(hasMatch tryItal2 s.length none s) && !(hasMatch tryCode2 s.length none s) &&
  !(hasMatch tryLink s.length none s) && !(hasMatch tryStrike s.length none s)

/-! ### Table cleaning and PDF table construction -/

/-- `'| ' + ' | '.join(cells) + ' |'`. -/
def rowLineOf (cells : List PyStr) : PyStr :=
  "| ".toList ++ joinSep (" | ".toList) cells ++ " |".toList

/-- Pad a row with empty cells up to `n` columns, then truncate to `n`
(the `while len(row) < len(headers)` loop followed by `row[:len(headers)]`). -/
def padRow (n : Nat) (row : List PyStr) : List PyStr :=
  (row ++ List.replicate (n - row.length) []).take n

/-- The row-collection loop of `_clean_table_markdown`: separators are
skipped, table rows are parsed, anything else is ignored. -/
def tableDataOf : List PyStr → List (List PyStr)
  | [] => []
  | l :: ls =>
    if isTableSepStr (pyStrip l) then tableDataOf ls
    else if isTableRow (pyStrip l) then parseTableRow (pyStrip l) :: tableDataOf ls
    else tableDataOf ls

/-- `MarkdownParser._clean_table_markdown`: re-emit the table as a header
line, a fresh `---` separator, and data rows padded or truncated to the
header width; if nothing parsed, return the buffered lines unchanged. -/
def cleanTableMarkdown (tls : List PyStr) : List PyStr :=
  if tls.isEmpty then []
  else
    match tableDataOf tls with
    | [] => tls
    | header :: rest =>
      rowLineOf header ::
      rowLineOf (header.map (fun _ => "---".toList)) ::
      rest.map (fun r => rowLineOf (padRow header.length r))

/-- The line loop of `MarkdownParser.clean_markdown_for_pdf`: table rows
and (inside a table) separator lines are buffered; a separator outside a
table is consumed without output; any other line flushes the buffer
through `_clean_table_markdown` and is itself cleaned line-wise. -/
def cleanLoop : List PyStr → Bool → List PyStr → List PyStr
  | [], inT, buf => if inT ∧ ¬ buf.isEmpty then cleanTableMarkdown buf else []
  | l :: ls, inT, buf =>
    let st := pyStrip l
    if isTableRow st then
      if inT then cleanLoop ls true (buf ++ [l]) else cleanLoop ls true [l]
    else if isTableSepStr st then
      if inT then cleanLoop ls true (buf ++ [l]) else cleanLoop ls false buf
    else
      if inT then cleanTableMarkdown buf ++ (cleanMarkdownLine l :: cleanLoop ls false [])
      else cleanMarkdownLine l :: cleanLoop ls false buf

/-- `MarkdownParser.clean_markdown_for_pdf`. -/
def cleanMarkdownForPdf (content : PyStr) : PyStr :=
  joinLines (cleanLoop (splitLines content) false [])

/-- `PDFGenerator._reconstruct_table_text`. -/
def reconstructTableText (t : TableBlock) : PyStr :=
  let headerLines :=
    if t.headers.isEmpty then []
    else [rowLineOf t.headers, rowLineOf (t.headers.map (fun _ => "---".toList))]
  joinLines (headerLines ++ t.rows.map rowLineOf)

/-- `PDFGenerator._create_pdf_table`, abstracted to the cell texts it puts
into the ReportLab table: header row first, then each data row with its
cells run through `_process_inline_markdown`, padded with empty cells or
truncated to the header width.  `none` models the early `return None` for
a table with no headers or no rows. -/
def createPdfTable (t : TableBlock) : Option (List (List PyStr)) :=
  if t.headers.isEmpty || t.rows.isEmpty then none
  else
    let hs := t.headers.map processInlineMarkdown
    some (hs :: t.rows.map (fun r => padRow hs.length (r.map processInlineMarkdown)))

/-! ### Mermaid block extraction (`_process_markdown_content`)

The content is first passed through `clean_markdown_for_pdf`; the source
then runs `re.findall` with the pattern whose literal text is the cleaned
form of a mermaid fence, `<code></code>` + backtick + `mermaid`, a lazy
dot-all body, and the cleaned closing fence. -/

/-- Scan for the earliest occurrence of `pat` (dot-all: newlines allowed
before it); return the text before it and the rest after it. -/
def takeUntilSub (pat : PyStr) : PyStr → Option (PyStr × PyStr)
  | [] => none
  | c :: cs =>
    if pat.isPrefixOf (c :: cs) then some ([], (c :: cs).drop pat.length)
    else
      match takeUntilSub pat cs with
      | some p => some (c :: p.1, p.2)
      | none => none

/-- The opening text of the pattern: `<code></code>`, a backtick,
`mermaid` and a newline. -/
def mermaidOpener : PyStr :=
  "<code></code>".toList ++ [btick] ++ "mermaid".toList ++ [Char.ofNat 10]

/-- The closing text of the pattern: a newline, `<code></code>`, backtick. -/
def mermaidCloser : PyStr :=
  [Char.ofNat 10] ++ "<code></code>".toList ++ [btick]

/-- `re.findall` of the mermaid pattern: at each position try the opener,
then capture lazily up to the earliest closer; resume after the match. -/
def extractMermaidGo : Nat → PyStr → List PyStr
  | 0, _ => []
  | _ + 1, [] => []
  | f + 1, c :: cs =>
    if mermaidOpener.isPrefixOf (c :: cs) then
      match takeUntilSub mermaidCloser ((c :: cs).drop mermaidOpener.length) with
      | some p => p.1 :: extractMermaidGo f p.2
      | none => extractMermaidGo f cs
    else extractMermaidGo f cs

/-- All mermaid diagram bodies found in (cleaned) content, in order. -/
def extractMermaidBlocks (s : PyStr) : List PyStr := extractMermaidGo s.length s

/-! ### Diagram renderer bridge (`_generate_mermaid_image`)

The external `mmdc` process and the file system are an oracle: attempt `i`
of a rendering call reports an exit code (or a timeout, or an unexpected
exception) together with whether the output raster file exists afterwards
and its size.  The model returns the produced image option, the number of
process invocations made, and whether the two scratch files (the mermaid
source file and the raster output file) still exist when the call
returns.  The `finally` block of the source always deletes the source
file; the output file is deleted only inside
`_process_mermaid_image_simple`, which runs only after an attempt
succeeded with an existing non-empty output file. -/

/-- Result of one `subprocess.run` of `mmdc`. -/
inductive RunRes where
  | exit (code : Int)
  | timedOut
  | failed
deriving DecidableEq

/-- Oracle record for one attempt: process result and the state of the
output file right after the attempt. -/
structure AttemptFS where
  res : RunRes
  outExists : Bool
  outSize : Nat
deriving DecidableEq

/-- What a call to `_generate_mermaid_image` produces and leaves behind. -/
structure GenOutcome where
  img : Option Unit
  attempts : Nat
  srcFileLeft : Bool
  outFileLeft : Bool
deriving DecidableEq

/-- `PDFGenerator._generate_mermaid_image` as a state machine over the
attempt oracle.  `procImg` abstracts the value returned by
`_process_mermaid_image_simple` (which deletes the output file in its own
`finally` block whether or not it returns an image). -/
def generateMermaidImage (mmdcAvailable : Bool) (run : Nat → AttemptFS)
    (procImg : Option Unit) : GenOutcome :=
  if ¬ mmdcAvailable then ⟨none, 0, false, false⟩
  else
    match (run 0).res with
    | RunRes.timedOut => ⟨none, 1, false, (run 0).outExists⟩
    | RunRes.failed => ⟨none, 1, false, (run 0).outExists⟩
    | RunRes.exit c =>
      if c = 0 then
        if (run 0).outExists ∧ (run 0).outSize > 0 then ⟨procImg, 1, false, false⟩
        else ⟨none, 1, false, (run 0).outExists⟩
      else
        match (run 1).res with
        | RunRes.timedOut => ⟨none, 2, false, (run 1).outExists⟩
        | RunRes.failed => ⟨none, 2, false, (run 1).outExists⟩
        | RunRes.exit c2 =>
          if c2 = 0 ∧ (run 1).outExists ∧ (run 1).outSize > 0 then ⟨procImg, 2, false, false⟩
          else
            match (run 2).res with
            | RunRes.timedOut => ⟨none, 3, false, (run 2).outExists⟩
            | RunRes.failed => ⟨none, 3, false, (run 2).outExists⟩
            | RunRes.exit c3 =>
              if c3 = 0 ∧ (run 2).outExists ∧ (run 2).outSize > 0 then ⟨procImg, 3, false, false⟩
              else ⟨none, 3, false, (run 2).outExists⟩

/-- A layout block as emitted by `_process_markdown_content`. -/
inductive LayoutBlock where
  | spacer (w h : Nat)
  | heading (style : String) (text : PyStr)
  | para (style : String) (text : PyStr)
  | image
  | pageBreak
deriving DecidableEq

/-- The textual fallback: `"[Mermaid Diagram]\n" + code[:200] + "..."`. -/
def mermaidFallbackText (code : PyStr) : PyStr :=
  "[Mermaid Diagram]\n".toList ++ code.take 200 ++ "...".toList

/-- What the caller appends to the story for one mermaid placeholder
(lines 519-535 of `pdf_generator.py`): an image with caption on success,
or the truncated source in code style on failure. -/
def mermaidSectionStory (code : PyStr) (img : Option Unit) : List LayoutBlock :=
  match img with
  | some _ =>
    [LayoutBlock.spacer 1 16,
     LayoutBlock.heading "CustomHeading3" ("System Architecture Diagram".toList),
     LayoutBlock.spacer 1 8, LayoutBlock.image, LayoutBlock.spacer 1 16]
  | none =>
    [LayoutBlock.spacer 1 12,
     LayoutBlock.para "CodeBlock" (mermaidFallbackText code),
     LayoutBlock.spacer 1 12]

/-! ### Image scaling (`_process_mermaid_image_simple`)

The arithmetic of the source, over exact rationals; `inch` is 72 points.
`original_width / 96.0` is the number the source treats as a length. -/

/-- One inch in points (`reportlab.lib.units.inch`). -/
def inchPts : ℚ := 72

/-- `max_width_inches = 6.0 * inch`. -/
def mermaidMaxW : ℚ := 6 * inchPts

/-- `max_height_inches = 4.5 * inch`. -/
def mermaidMaxH : ℚ := (9 / 2) * inchPts

/-- `min_width = 3.0 * inch`. -/
def mermaidMinW : ℚ := 3 * inchPts

/-- `min_height = 2.0 * inch`. -/
def mermaidMinH : ℚ := 2 * inchPts

/-- The display-size computation of `_process_mermaid_image_simple` for a
raster of native pixel size `w` by `h`: scale by
`min(max_w / (w/96), max_h / (h/96), 1)`, then apply the two sequential
minimum-size adjustments. -/
def processMermaidSize (w h : ℚ) : ℚ × ℚ :=
  let wScale := mermaidMaxW / (w / 96)
  let hScale := mermaidMaxH / (h / 96)
  let scale := min (min wScale hScale) 1
  let fw := (w / 96) * scale
  let fh := (h / 96) * scale
  let p1 := if fw < mermaidMinW then (mermaidMinW, fh * (mermaidMinW / fw)) else (fw, fh)
  if p1.2 < mermaidMinH then (p1.1 * (mermaidMinH / p1.2), mermaidMinH) else p1

/-! ## Theorems -/

/-- If the matcher fires nowhere, the `re.sub` pass is the identity. -/
theorem scanSub_eq_self_of_no_match (m : InlineMatch) :
    ∀ (f : Nat) (prev : Option Char) (s : PyStr),
      hasMatch m f prev s = false → scanSub m f prev s = s := by
  intro f
  induction f with
  | zero => intro prev s _; rfl
  | succ f ih =>
    intro prev s h
    cases s with
    | nil => rfl
    | cons c cs =>
      simp only [hasMatch, Bool.or_eq_false_iff] at h
      cases hm : m prev (c :: cs) with
      | some r => rw [hm] at h; simp at h
      | none =>
        simp only [scanSub]
        rw [hm]
        rw [ih (some c) cs h.2]

/-- Claim C10: on a line with no bold, italic, inline-code, link or
strikethrough construct (no match of any of the regexes used by
`_clean_markdown_line` and `_process_inline_markdown`), both inline
normalisers return the line unchanged, and are therefore idempotent on
such input. -/
theorem c10_inline_passthrough (line : PyStr) (h : noConstruct line = true) :
    cleanMarkdownLine line = line ∧ processInlineMarkdown line = line ∧
    cleanMarkdownLine (cleanMarkdownLine line) = cleanMarkdownLine line ∧
    processInlineMarkdown (processInlineMarkdown line) = processInlineMarkdown line := by
  simp only [noConstruct, Bool.and_eq_true, Bool.not_eq_true'] at h
  obtain ⟨⟨⟨⟨⟨⟨⟨h1, h2⟩, h3⟩, h4⟩, h5⟩, h6⟩, h7⟩, h8⟩ := h
  have e1 : runSub tryBoldLazy line = line := scanSub_eq_self_of_no_match _ _ _ _ h1
  have e2 : runSub tryItalLazy line = line := scanSub_eq_self_of_no_match _ _ _ _ h2
  have e3 : runSub tryCodeLazy line = line := scanSub_eq_self_of_no_match _ _ _ _ h3
  have e4 : runSub tryBold2 line = line := scanSub_eq_self_of_no_match _ _ _ _ h4
  have e5 : runSub tryItal2 line = line := scanSub_eq_self_of_no_match _ _ _ _ h5
  have e6 : runSub tryCode2 line = line := scanSub_eq_self_of_no_match _ _ _ _ h6
  have e7 : runSub tryLink line = line := scanSub_eq_self_of_no_match _ _ _ _ h7
  have e8 : runSub tryStrike line = line := scanSub_eq_self_of_no_match _ _ _ _ h8
  have hc : cleanMarkdownLine line = line := by
    unfold cleanMarkdownLine; rw [e1, e2, e3]
  have hp : processInlineMarkdown line = line := by
    unfold processInlineMarkdown; rw [e4, e5, e6, e7, e8]
  refine ⟨hc, hp, ?_, ?_⟩
  · rw [hc, hc]
  · rw [hp, hp]

/-- Witness for C10 at a concrete construct-free line. -/
theorem c10_witness :
    noConstruct ("plain text line.".toList) = true ∧
    cleanMarkdownLine ("plain text line.".toList) = "plain text line.".toList ∧
    processInlineMarkdown ("plain text line.".toList) = "plain text line.".toList := by
  refine ⟨by decide, ?_, ?_⟩
  · exact (c10_inline_passthrough _ (by decide)).1
  · exact (c10_inline_passthrough _ (by decide)).2.1

/-- A padded-or-truncated row always has exactly `n` cells. -/
theorem padRow_length (n : Nat) (row : List PyStr) : (padRow n row).length = n := by
  simp only [padRow, List.length_take, List.length_append, List.length_replicate]
  omega

/-- Claim C7: every row emitted by `_create_pdf_table` (header row and
data rows alike) has exactly `len(headers)` cells; short rows are padded
with empty cells, long rows truncated. -/
theorem c7_pdf_table_columns (t : TableBlock) (out : List (List PyStr))
    (h : createPdfTable t = some out) :
    out.length = t.rows.length + 1 ∧ ∀ r ∈ out, r.length = t.headers.length := by
  unfold createPdfTable at h
  by_cases he : t.headers.isEmpty || t.rows.isEmpty
  · rw [if_pos he] at h; cases h
  · rw [if_neg he] at h
    have hout : (t.headers.map processInlineMarkdown) ::
        t.rows.map (fun r => padRow (t.headers.map processInlineMarkdown).length
          (r.map processInlineMarkdown)) = out := Option.some.inj h
    subst hout
    constructor
    · simp
    · intro r hr
      rcases List.mem_cons.mp hr with hr1 | hr2
      · rw [hr1]; simp
      · obtain ⟨r0, _, hpad⟩ := List.mem_map.mp hr2
        rw [← hpad, padRow_length]
        simp

/-- Witness for C7 at a concrete table with a short row. -/
theorem c7_witness :
    createPdfTable ⟨["H1".toList, "H2".toList], [["a".toList]]⟩ =
      some [["H1".toList, "H2".toList], ["a".toList, []]] ∧
    ∀ r ∈ [["H1".toList, "H2".toList], ["a".toList, ([] : PyStr)]], r.length = 2 := by
  refine ⟨by decide, ?_⟩
  exact (c7_pdf_table_columns ⟨["H1".toList, "H2".toList], [["a".toList]]⟩ _ (by decide)).2

/-- The TOC loop is exactly a filter by the exclusion predicate followed
by formatting. -/
theorem tocLoop_eq_filter (hs : List Heading) :
    tocLoop hs = (hs.filter (fun h => !tocExcluded h)).map fmtTocEntry := by
  induction hs with
  | nil => rfl
  | cons h hs ih =>
    by_cases he : tocExcluded h
    · simp [tocLoop, he, ih]
    · simp [tocLoop, he, ih]

/-- Claim C9: a heading is omitted from the generated table of contents
iff its level is 1 and its lower-cased title contains one of the fixed
words technical, design, document, title (the predicate `tocExcluded`);
in particular, for the document consisting of a level-1 and a level-2
heading both titled Technical Design Document, only the level-2 heading
is kept. -/
theorem c9_toc_exclusion (content : PyStr) :
    tocLoop (extractHeadings content) =
      ((extractHeadings content).filter (fun h => !tocExcluded h)).map fmtTocEntry ∧
    tocLoop (extractHeadings
        ("# Technical Design Document\n## Technical Design Document".toList)) =
      [fmtTocEntry ⟨2, "Technical Design Document".toList,
        "technical-design-document".toList, 28⟩] := by
  exact ⟨tocLoop_eq_filter _, by decide⟩

/-! Helper lemmas for the slug well-formedness claim. -/

/-- Membership survives `dropWhile`. -/
theorem mem_of_mem_dropWhile {p : Char → Bool} {l : PyStr} {x : Char}
    (h : x ∈ l.dropWhile p) : x ∈ l := by
  induction l with
  | nil => simp at h
  | cons c cs ih =>
    by_cases hp : p c
    · rw [List.dropWhile_cons_of_pos hp] at h
      exact List.mem_cons_of_mem c (ih h)
    · rw [List.dropWhile_cons_of_neg hp] at h
      exact h

/-- Membership survives `dropTrailing`. -/
theorem mem_of_mem_dropTrailing {p : Char → Bool} {l : PyStr} {x : Char}
    (h : x ∈ dropTrailing p l) : x ∈ l := by
  induction l with
  | nil => simp [dropTrailing] at h
  | cons c cs ih =>
    simp only [dropTrailing] at h
    cases hr : dropTrailing p cs with
    | nil =>
      rw [hr] at h
      by_cases hp : p c
      · simp [hp] at h
      · simp [hp] at h; simp [h]
    | cons d rest =>
      rw [hr] at h
      rcases List.mem_cons.mp h with h1 | h2
      · simp [h1]
      · exact List.mem_cons_of_mem c (ih (hr ▸ h2))

/-- Every character of a run-collapsed string is the replacement character
or a class-negative character of the input. -/
theorem mem_collapseRunsGo {p : Char → Bool} {r : Char} :
    ∀ (b : Bool) (s : PyStr) (x : Char), x ∈ collapseRunsGo p r b s →
      x = r ∨ (x ∈ s ∧ p x = false) := by
  intro b s
  induction s generalizing b with
  | nil => intro x h; simp [collapseRunsGo] at h
  | cons c cs ih =>
    intro x h
    simp only [collapseRunsGo] at h
    cases hp : p c with
    | true =>
      rw [hp] at h
      simp only [if_true] at h
      by_cases hb : b
      · rw [if_pos hb] at h
        rcases ih true x h with h1 | h2
        · exact Or.inl h1
        · exact Or.inr ⟨List.mem_cons_of_mem c h2.1, h2.2⟩
      · rw [if_neg hb] at h
        rcases List.mem_cons.mp h with h1 | h2
        · exact Or.inl h1
        · rcases ih true x h2 with h3 | h4
          · exact Or.inl h3
          · exact Or.inr ⟨List.mem_cons_of_mem c h4.1, h4.2⟩
    | false =>
      rw [hp] at h
      simp only [if_false, Bool.false_eq_true] at h
      rcases List.mem_cons.mp h with h1 | h2
      · exact Or.inr ⟨h1 ▸ List.mem_cons_self c cs, by rw [h1]; exact hp⟩
      · rcases ih false x h2 with h3 | h4
        · exact Or.inl h3
        · exact Or.inr ⟨List.mem_cons_of_mem c h4.1, h4.2⟩

/-- A tail of a double-dash-free string is double-dash-free. -/
theorem hasDoubleDash_tail {c : Char} {cs : PyStr}
    (h : hasDoubleDash (c :: cs) = false) : hasDoubleDash cs = false := by
  cases cs with
  | nil => rfl
  | cons b rest =>
    simp only [hasDoubleDash, Bool.or_eq_false_iff] at h
    exact h.2

/-- If class-negative characters are never dashes, run-collapsing with a
dash produces no adjacent dashes, and inside a run the output does not
start with a dash. -/
theorem collapseRunsGo_noDouble (p : Char → Bool) (hpc : ∀ c, p c = false → ¬ c = '-') :
    ∀ (s : PyStr) (b : Bool),
      hasDoubleDash (collapseRunsGo p '-' b s) = false ∧
      (b = true → headIsDash (collapseRunsGo p '-' b s) = false) := by
  intro s
  induction s with
  | nil => intro b; exact ⟨rfl, fun _ => rfl⟩
  | cons c cs ih =>
    intro b
    cases hp : p c with
    | true =>
      cases b with
      | true =>
        simp only [collapseRunsGo, hp, if_true]
        exact ⟨(ih true).1, fun _ => (ih true).2 rfl⟩
      | false =>
        simp only [collapseRunsGo, hp, if_true, Bool.false_eq_true, if_false]
        constructor
        · cases hr : collapseRunsGo p '-' true cs with
          | nil => rfl
          | cons d rest =>
            have hd : headIsDash (d :: rest) = false := by
              rw [← hr]; exact (ih true).2 rfl
            have hdd : hasDoubleDash (d :: rest) = false := by
              rw [← hr]; exact (ih true).1
            simp only [hasDoubleDash, Bool.or_eq_false_iff]
            simp only [headIsDash] at hd
            refine ⟨?_, hdd⟩
            simp [hd]
        · intro hfalse; cases hfalse
    | false =>
      have hcd : ¬ c = '-' := hpc c hp
      simp only [collapseRunsGo, hp, Bool.false_eq_true, if_false]
      constructor
      · cases hr : collapseRunsGo p '-' false cs with
        | nil => rfl
        | cons d rest =>
          have hdd : hasDoubleDash (d :: rest) = false := by
            rw [← hr]; exact (ih false).1
          simp only [hasDoubleDash, Bool.or_eq_false_iff]
          refine ⟨?_, hdd⟩
          simp [hcd]
      · intro _
        simp [headIsDash, hcd]

/-- A kept character that is not whitespace is a slug character. -/
theorem slugChar_of_keep (x : Char) (hk : slugKeep x = true) (hs : pyIsSpace x = false) :
    slugChar x = true := by
  simp only [slugKeep, Bool.or_eq_true, Bool.and_eq_true, decide_eq_true_eq] at hk
  simp only [slugChar, Bool.or_eq_true, Bool.and_eq_true, decide_eq_true_eq]
  rcases hk with ((h | h) | h) | h
  · exact Or.inl (Or.inl h)
  · exact Or.inl (Or.inr h)
  · rw [h] at hs; cases hs
  · exact Or.inr h

/-- `dropWhile` preserves freedom from double dashes. -/
theorem hasDoubleDash_dropWhile (p : Char → Bool) (l : PyStr)
    (h : hasDoubleDash l = false) : hasDoubleDash (l.dropWhile p) = false := by
  induction l with
  | nil => exact h
  | cons c cs ih =>
    by_cases hp : p c
    · rw [List.dropWhile_cons_of_pos hp]
      exact ih (hasDoubleDash_tail h)
    · rw [List.dropWhile_cons_of_neg hp]
      exact h

/-- `dropTrailing` keeps the head (or empties the list). -/
theorem dropTrailing_head (p : Char → Bool) (l : PyStr) :
    dropTrailing p l = [] ∨ (dropTrailing p l).head? = l.head? := by
  cases l with
  | nil => exact Or.inl rfl
  | cons c cs =>
    simp only [dropTrailing]
    cases hr : dropTrailing p cs with
    | nil =>
      by_cases hp : p c
      · exact Or.inl (by simp [hp])
      · exact Or.inr (by simp [hp])
    | cons d rest => exact Or.inr rfl

/-- `dropTrailing` preserves freedom from double dashes. -/
theorem hasDoubleDash_dropTrailing (p : Char → Bool) (l : PyStr)
    (h : hasDoubleDash l = false) : hasDoubleDash (dropTrailing p l) = false := by
  induction l with
  | nil => rfl
  | cons c cs ih =>
    simp only [dropTrailing]
    cases hr : dropTrailing p cs with
    | nil =>
      by_cases hp : p c
      · simp [hp, hasDoubleDash]
      · simp [hp, hasDoubleDash]
    | cons d rest =>
      have h2 : hasDoubleDash (d :: rest) = false := by
        rw [← hr]; exact ih (hasDoubleDash_tail h)
      rcases dropTrailing_head p cs with he | hh
      · rw [he] at hr; cases hr
      · rw [hr] at hh
        cases cs with
        | nil => simp [dropTrailing] at hr
        | cons c2 cs2 =>
          simp only [List.head?_cons, Option.some.injEq] at hh
          simp only [hasDoubleDash, Bool.or_eq_false_iff] at h ⊢
          exact ⟨by rw [hh]; exact h.1, h2⟩

/-- After dropping leading dashes, the string does not start with a dash. -/
theorem headIsDash_dropWhile_dash (l : PyStr) :
    headIsDash (l.dropWhile (fun c => decide (c = '-'))) = false := by
  induction l with
  | nil => rfl
  | cons c cs ih =>
    by_cases hp : c = '-'
    · rw [List.dropWhile_cons_of_pos (by simp [hp])]
      exact ih
    · rw [List.dropWhile_cons_of_neg (by simp [hp])]
      simp [headIsDash, hp]

/-- `dropTrailing` preserves not starting with a dash. -/
theorem headIsDash_dropTrailing (p : Char → Bool) (l : PyStr)
    (h : headIsDash l = false) : headIsDash (dropTrailing p l) = false := by
  cases l with
  | nil => simpa [dropTrailing] using h
  | cons c cs =>
    simp only [dropTrailing]
    cases hr : dropTrailing p cs with
    | nil =>
      by_cases hp : p c
      · simp [hp, headIsDash]
      · simpa [hp, headIsDash] using h
    | cons d rest => simpa [headIsDash] using h

/-- `lastIsDash` through `getLast?`. -/
theorem lastIsDash_eq (s : PyStr) : lastIsDash s = decide (s.getLast? = some '-') := by
  rw [lastIsDash, ← List.head?_reverse]
  cases hr : s.reverse with
  | nil => simp [headIsDash]
  | cons c cs => simp [headIsDash]

/-- The last character surviving `dropTrailing p` fails `p`. -/
theorem getLast?_dropTrailing (p : Char → Bool) (l : PyStr) (x : Char)
    (h : (dropTrailing p l).getLast? = some x) : p x = false := by
  induction l with
  | nil => simp [dropTrailing] at h
  | cons c cs ih =>
    simp only [dropTrailing] at h
    cases hr : dropTrailing p cs with
    | nil =>
      rw [hr] at h
      by_cases hp : p c
      · simp [hp] at h
      · simp only [hp, if_false, Bool.false_eq_true] at h
        simp only [List.getLast?_singleton, Option.some.injEq] at h
        rw [← h]
        exact Bool.eq_false_iff.mpr hp
    | cons d rest =>
      rw [hr] at h
      rw [List.getLast?_cons_cons] at h
      exact ih (hr ▸ h)

/-- Claim C8: `_create_heading_id` always returns a non-empty slug made of
lower-case letters, digits and hyphens, with no repeated hyphens and no
leading or trailing hyphen (either the processed title, or the fixed
fallback `"heading"`).  Determinism holds because the model is a pure
function of the title alone, mirroring the source, which reads no other
state. -/
theorem c8_heading_id_wellformed (title : PyStr) :
    (createHeadingId title).isEmpty = false ∧
    (createHeadingId title).all slugChar = true ∧
    hasDoubleDash (createHeadingId title) = false ∧
    headIsDash (createHeadingId title) = false ∧
    lastIsDash (createHeadingId title) = false := by
  have heq : ∃ d, d = stripDash (collapseRuns (fun x => decide (x = '-')) '-'
      (collapseRuns pyIsSpace '-' ((title.map pyLowerChar).filter slugKeep))) ∧
      createHeadingId title = if d.isEmpty then "heading".toList else d := ⟨_, rfl, rfl⟩
  obtain ⟨d, hdX, hche⟩ := heq
  rw [hche]
  by_cases he : d.isEmpty
  · rw [if_pos he]
    exact ⟨by decide, by decide, by decide, by decide, by decide⟩
  · rw [if_neg he]
    have hpc : ∀ c : Char, decide (c = '-') = false → ¬ c = '-' :=
      fun c hc => of_decide_eq_false hc
    have hnodc : hasDoubleDash (collapseRuns (fun x => decide (x = '-')) '-'
        (collapseRuns pyIsSpace '-' ((title.map pyLowerChar).filter slugKeep))) = false :=
      (collapseRunsGo_noDouble _ hpc _ false).1
    refine ⟨Bool.eq_false_iff.mpr he, ?_, ?_, ?_, ?_⟩
    · rw [List.all_eq_true]
      intro x hx
      rw [hdX] at hx
      simp only [stripDash] at hx
      have hx2 := mem_of_mem_dropWhile (mem_of_mem_dropTrailing hx)
      rcases mem_collapseRunsGo false _ x hx2 with h1 | h2
      · rw [h1]; decide
      · rcases mem_collapseRunsGo false _ x h2.1 with h3 | h4
        · rw [h3]; decide
        · obtain ⟨hmem, hkeep⟩ := List.mem_filter.mp h4.1
          exact slugChar_of_keep x hkeep h4.2
    · rw [hdX]
      simp only [stripDash]
      exact hasDoubleDash_dropTrailing _ _ (hasDoubleDash_dropWhile _ _ hnodc)
    · rw [hdX]
      simp only [stripDash]
      exact headIsDash_dropTrailing _ _ (headIsDash_dropWhile_dash _)
    · rw [hdX]
      simp only [stripDash]
      rw [lastIsDash_eq]
      cases hl : (dropTrailing (fun c => decide (c = '-'))
          ((collapseRuns (fun x => decide (x = '-')) '-'
            (collapseRuns pyIsSpace '-'
              ((title.map pyLowerChar).filter slugKeep))).dropWhile
                (fun c => decide (c = '-')))).getLast? with
      | none => simp
      | some y =>
        have := getLast?_dropTrailing _ _ _ hl
        simp only [Option.some.injEq]
        by_cases hy : y = '-'
        · rw [hy] at this; simp at this
        · simp [hy]

/-- Claim C1: when the external renderer exits non-zero on every
invocation, `_generate_mermaid_image` makes exactly three attempts (the
configured command, the explicit-config retry, the bare-command retry),
returns no image (the model is a total function, so no exception reaches
the caller), and `_process_markdown_content` then appends the textual
fallback block, a code-styled paragraph holding `"[Mermaid Diagram]\n"`,
the first 200 characters of the diagram source and an ellipsis, between
two spacers. -/
theorem c1_mermaid_failure_three_attempts_fallback (run : Nat → AttemptFS)
    (procImg : Option Unit) (code : PyStr)
    (h : ∀ i, i < 3 → ∃ c, (run i).res = RunRes.exit c ∧ c ≠ 0) :
    (generateMermaidImage true run procImg).attempts = 3 ∧
    (generateMermaidImage true run procImg).img = none ∧
    mermaidSectionStory code (generateMermaidImage true run procImg).img =
      [LayoutBlock.spacer 1 12,
       LayoutBlock.para "CodeBlock" (mermaidFallbackText code),
       LayoutBlock.spacer 1 12] := by
  obtain ⟨c0, h0, n0⟩ := h 0 (by omega)
  obtain ⟨c1, h1, n1⟩ := h 1 (by omega)
  obtain ⟨c2, h2, n2⟩ := h 2 (by omega)
  have hg : generateMermaidImage true run procImg = ⟨none, 3, false, (run 2).outExists⟩ := by
    unfold generateMermaidImage
    simp [h0, h1, h2, n0, n1, n2]
  rw [hg]
  exact ⟨rfl, rfl, rfl⟩

/-- Witness for C1: a concrete oracle whose every attempt exits with
code 1. -/
theorem c1_witness :
    (generateMermaidImage true (fun _ => ⟨RunRes.exit 1, false, 0⟩) none).attempts = 3 ∧
    (generateMermaidImage true (fun _ => ⟨RunRes.exit 1, false, 0⟩) none).img = none ∧
    mermaidSectionStory ("graph TD".toList)
        (generateMermaidImage true (fun _ => ⟨RunRes.exit 1, false, 0⟩) none).img =
      [LayoutBlock.spacer 1 12,
       LayoutBlock.para "CodeBlock" (mermaidFallbackText ("graph TD".toList)),
       LayoutBlock.spacer 1 12] :=
  c1_mermaid_failure_three_attempts_fallback (fun _ => ⟨RunRes.exit 1, false, 0⟩) none
    ("graph TD".toList) (fun i _ => ⟨1, rfl, by decide⟩)

/-- Counterexample to Claim C4: when the first attempt exits 0 but leaves
an empty output file (a partially-written raster), the call returns with
no image after one attempt and the raster output file is still on disk —
the `finally` block of `_generate_mermaid_image` deliberately skips
deleting `output_path`, and `_process_mermaid_image_simple`, which would
delete it, is never reached on this exit path. -/
theorem c4_counterexample :
    (generateMermaidImage true (fun _ => ⟨RunRes.exit 0, true, 0⟩) none).img = none ∧
    (generateMermaidImage true (fun _ => ⟨RunRes.exit 0, true, 0⟩) none).attempts = 1 ∧
    (generateMermaidImage true (fun _ => ⟨RunRes.exit 0, true, 0⟩) none).outFileLeft = true := by
  refine ⟨rfl, rfl, rfl⟩

/-- Claim C4 amended: on every exit path the diagram-source scratch file
is deleted, and on every exit path that reaches image processing (so in
particular whenever an image is returned) the raster output file is
deleted as well; on failure exits an existing raster output file is left
behind. -/
theorem c4_cleanup_amended (avail : Bool) (run : Nat → AttemptFS) (procImg : Option Unit) :
    (generateMermaidImage avail run procImg).srcFileLeft = false ∧
    ((generateMermaidImage avail run procImg).img.isSome = true →
      (generateMermaidImage avail run procImg).outFileLeft = false) := by
  cases avail with
  | false => exact ⟨rfl, fun _ => rfl⟩
  | true =>
    cases h0 : (run 0).res with
    | timedOut =>
      exact ⟨by simp [generateMermaidImage, h0],
        fun hi => by simp [generateMermaidImage, h0] at hi⟩
    | failed =>
      exact ⟨by simp [generateMermaidImage, h0],
        fun hi => by simp [generateMermaidImage, h0] at hi⟩
    | exit c0 =>
      by_cases hc0 : c0 = 0
      · by_cases hf0 : (run 0).outExists = true ∧ (run 0).outSize > 0
        · exact ⟨by simp [generateMermaidImage, h0, hc0, hf0],
            fun _ => by simp [generateMermaidImage, h0, hc0, hf0]⟩
        · exact ⟨by simp [generateMermaidImage, h0, hc0, hf0],
            fun hi => by simp [generateMermaidImage, h0, hc0, hf0] at hi⟩
      · cases h1 : (run 1).res with
        | timedOut =>
          exact ⟨by simp [generateMermaidImage, h0, hc0, h1],
            fun hi => by simp [generateMermaidImage, h0, hc0, h1] at hi⟩
        | failed =>
          exact ⟨by simp [generateMermaidImage, h0, hc0, h1],
            fun hi => by simp [generateMermaidImage, h0, hc0, h1] at hi⟩
        | exit c1 =>
          by_cases hx1 : c1 = 0 ∧ (run 1).outExists = true ∧ (run 1).outSize > 0
          · exact ⟨by simp [generateMermaidImage, h0, hc0, h1, hx1],
              fun _ => by simp [generateMermaidImage, h0, hc0, h1, hx1]⟩
          · cases h2 : (run 2).res with
            | timedOut =>
              exact ⟨by simp [generateMermaidImage, h0, hc0, h1, hx1, h2],
                fun hi => by simp [generateMermaidImage, h0, hc0, h1, hx1, h2] at hi⟩
            | failed =>
              exact ⟨by simp [generateMermaidImage, h0, hc0, h1, hx1, h2],
                fun hi => by simp [generateMermaidImage, h0, hc0, h1, hx1, h2] at hi⟩
            | exit c2 =>
              by_cases hx2 : c2 = 0 ∧ (run 2).outExists = true ∧ (run 2).outSize > 0
              · exact ⟨by simp [generateMermaidImage, h0, hc0, h1, hx1, h2, hx2],
                  fun _ => by simp [generateMermaidImage, h0, hc0, h1, hx1, h2, hx2]⟩
              · exact ⟨by simp [generateMermaidImage, h0, hc0, h1, hx1, h2, hx2],
                  fun hi => by simp [generateMermaidImage, h0, hc0, h1, hx1, h2, hx2] at hi⟩

/-- Witness for the amended C4 on a successful concrete run. -/
theorem c4_witness :
    (generateMermaidImage true (fun _ => ⟨RunRes.exit 0, true, 5⟩) (some ())).img.isSome = true ∧
    (generateMermaidImage true (fun _ => ⟨RunRes.exit 0, true, 5⟩) (some ())).srcFileLeft = false ∧
    (generateMermaidImage true (fun _ => ⟨RunRes.exit 0, true, 5⟩) (some ())).outFileLeft = false := by
  have h := c4_cleanup_amended true (fun _ => ⟨RunRes.exit 0, true, 5⟩) (some ())
  exact ⟨rfl, h.1, h.2 rfl⟩

/-! Helper lemmas for the termination and leniency claim. -/

/-- The row loop consumes a prefix of its input. -/
theorem grabRows_snd_length_le : ∀ ls : List PyStr, (grabRows ls).2.length ≤ ls.length := by
  intro ls
  induction ls with
  | nil => simp [grabRows]
  | cons l ls ih =>
    simp only [grabRows]
    by_cases hr : isTableRow (pyStrip l)
    · rw [if_pos hr]
      simp only [List.length_cons]
      omega
    · rw [if_neg hr]

/-- Skipping the separator consumes at most one line. -/
theorem skipSeparator_length_le : ∀ ls : List PyStr, (skipSeparator ls).length ≤ ls.length := by
  intro ls
  cases ls with
  | nil => simp [skipSeparator]
  | cons l ls =>
    simp only [skipSeparator]
    by_cases hs : isTableSepStr l
    · rw [if_pos hs]; simp
    · rw [if_neg hs]

/-- Fuel `lines.length + 1` always suffices for the table-parsing loop:
the loop of `parse_markdown_tables` terminates on every input. -/
theorem parseTablesLoopF_isSome :
    ∀ (f : Nat) (ls : List PyStr), ls.length < f → (parseTablesLoopF f ls).isSome = true := by
  intro f
  induction f with
  | zero => intro ls h; omega
  | succ f ih =>
    intro ls h
    cases ls with
    | nil => rfl
    | cons l ls =>
      simp only [parseTablesLoopF]
      by_cases hr : isTableRow (pyStrip l)
      · rw [if_pos hr]
        have hlen : (grabRows (skipSeparator ls)).2.length < f := by
          have h1 := grabRows_snd_length_le (skipSeparator ls)
          have h2 := skipSeparator_length_le ls
          simp only [List.length_cons] at h
          omega
        have hsome := ih (grabRows (skipSeparator ls)).2 hlen
        cases hp : parseTablesLoopF f (grabRows (skipSeparator ls)).2 with
        | none => rw [hp] at hsome; simp at hsome
        | some ts => rfl
      · rw [if_neg hr]
        apply ih
        simp only [List.length_cons] at h
        omega

/-- Lines that never look like table rows or separators pass through the
cleaning loop one by one. -/
theorem cleanLoop_no_table :
    ∀ ls : List PyStr,
      (∀ l ∈ ls, isTableRow (pyStrip l) = false ∧ isTableSepStr (pyStrip l) = false) →
      cleanLoop ls false [] = ls.map cleanMarkdownLine := by
  intro ls
  induction ls with
  | nil => intro _; rfl
  | cons l ls ih =>
    intro h
    have hl := h l (List.mem_cons_self l ls)
    have hrest : ∀ x ∈ ls, isTableRow (pyStrip x) = false ∧ isTableSepStr (pyStrip x) = false :=
      fun x hx => h x (List.mem_cons_of_mem l hx)
    simp only [cleanLoop, hl.1, hl.2, Bool.false_eq_true, if_false, List.map_cons]
    rw [ih hrest]

/-- Headings are at most one per line. -/
theorem extractHeadingsGo_length_le :
    ∀ (ls : List PyStr) (pos : Nat), (extractHeadingsGo ls pos).length ≤ ls.length := by
  intro ls
  induction ls with
  | nil => intro pos; simp [extractHeadingsGo]
  | cons l ls ih =>
    intro pos
    simp only [extractHeadingsGo]
    cases matchHeadingLine l with
    | none =>
      simp only [List.length_cons]
      exact Nat.le_succ_of_le (ih _)
    | some kt =>
      simp only [List.length_cons]
      exact Nat.succ_le_succ (ih _)

/-- Counterexample to Claim C2 (the degrade-to-plain-text half): the line
`|---|` is a table separator that is not a table row, and when it occurs
outside a table `clean_markdown_for_pdf` consumes it without emitting
anything — the middle line of the input below vanishes from the output,
whereas treating the malformed table as plain paragraph text (line-wise
cleaning, which leaves each of these lines unchanged) would keep all
three lines. -/
theorem c2_counterexample :
    cleanMarkdownForPdf ("| a |\n|---|\n| b |".toList) = ("| a |\n| b |".toList) ∧
    (splitLines ("| a |\n|---|\n| b |".toList)).map cleanMarkdownLine =
      splitLines ("| a |\n|---|\n| b |".toList) ∧
    (splitLines ("| a |\n|---|\n| b |".toList)).length = 3 ∧
    (splitLines (cleanMarkdownForPdf ("| a |\n|---|\n| b |".toList))).length = 2 := by
  refine ⟨by decide, by decide, by decide, by decide⟩

/-- Claim C2 amended: `extract_headings`, `parse_markdown_tables` and
`clean_markdown_for_pdf` terminate normally on every input, however
malformed (the parsing loop exits within one iteration per line, heading
extraction visits each line once, and the model functions are total, so
no exception is raised); input whose lines contain no table-row and no
table-separator line degrades to line-wise cleaned plain paragraph text.
(A table-separator line outside a table is dropped, not kept as text; see
the counterexample.) -/
theorem c2_parsing_total_amended (content : PyStr) :
    (parseTablesLoopF ((splitLines content).length + 1) (splitLines content)).isSome = true ∧
    (extractHeadings content).length ≤ (splitLines content).length ∧
    ((∀ l ∈ splitLines content,
        isTableRow (pyStrip l) = false ∧ isTableSepStr (pyStrip l) = false) →
      cleanMarkdownForPdf content = joinLines ((splitLines content).map cleanMarkdownLine)) := by
  refine ⟨parseTablesLoopF_isSome _ _ (by omega), extractHeadingsGo_length_le _ 0, ?_⟩
  intro h
  unfold cleanMarkdownForPdf
  rw [cleanLoop_no_table _ h]

/-- Witness for the amended C2 at a concrete two-line input. -/
theorem c2_witness :
    (parseTablesLoopF ((splitLines ("hello\nworld".toList)).length + 1)
      (splitLines ("hello\nworld".toList))).isSome = true ∧
    cleanMarkdownForPdf ("hello\nworld".toList) =
      joinLines ((splitLines ("hello\nworld".toList)).map cleanMarkdownLine) := by
  have h := c2_parsing_total_amended ("hello\nworld".toList)
  exact ⟨h.1, h.2.2 (by decide)⟩

/-- Counterexample to Claim C3: for a square 96 by 96 raster the scaled
result falls below the minimum-readable floor, yet the output is
(216, 216) points (3 by 3 inches): its height strictly exceeds the floor
height of 144 points (2 inches), so the output does not equal the floor —
the code scales up uniformly from the deficient dimension instead of
producing the floor size. -/
theorem c3_counterexample :
    (96 : ℚ) / 96 *
        min (min (mermaidMaxW / ((96 : ℚ) / 96)) (mermaidMaxH / ((96 : ℚ) / 96))) 1 <
      mermaidMinW ∧
    processMermaidSize 96 96 = (216, 216) ∧
    mermaidMinH < (processMermaidSize 96 96).2 := by
  refine ⟨?_, ?_, ?_⟩
  · norm_num [mermaidMaxW, mermaidMaxH, mermaidMinW, inchPts, min_def]
  · norm_num [processMermaidSize, mermaidMaxW, mermaidMaxH, mermaidMinW, mermaidMinH,
      inchPts, min_def]
  · norm_num [processMermaidSize, mermaidMaxW, mermaidMaxH, mermaidMinW, mermaidMinH,
      inchPts, min_def]

/-- Claim C3 amended: writing `s` for the scale factor
`min(max_w/(w/96), max_h/(h/96), 1)` and `(pw, ph)` for the scaled native
size `(w/96 * s, h/96 * s)`, the computed display size equals `(pw, ph)`
whenever that is at or above the minimum-readable floor in both
dimensions (so no upscaling above native size happens there); when it
falls below the floor, the output preserves the native aspect ratio
exactly, meets the floor in both dimensions, and the last-adjusted
dimension equals its floor value — the output equals the floor itself
only for rasters whose aspect ratio is exactly 3 to 2. -/
theorem c3_scaling_amended (w h : ℚ) (hw : 0 < w) (hh : 0 < h) :
    ((mermaidMinW ≤ w / 96 * min (min (mermaidMaxW / (w / 96)) (mermaidMaxH / (h / 96))) 1 ∧
      mermaidMinH ≤ h / 96 * min (min (mermaidMaxW / (w / 96)) (mermaidMaxH / (h / 96))) 1) →
      processMermaidSize w h =
        (w / 96 * min (min (mermaidMaxW / (w / 96)) (mermaidMaxH / (h / 96))) 1,
         h / 96 * min (min (mermaidMaxW / (w / 96)) (mermaidMaxH / (h / 96))) 1)) ∧
    ((w / 96 * min (min (mermaidMaxW / (w / 96)) (mermaidMaxH / (h / 96))) 1 < mermaidMinW ∨
      h / 96 * min (min (mermaidMaxW / (w / 96)) (mermaidMaxH / (h / 96))) 1 < mermaidMinH) →
      ((processMermaidSize w h).1 * h = (processMermaidSize w h).2 * w ∧
       mermaidMinW ≤ (processMermaidSize w h).1 ∧
       mermaidMinH ≤ (processMermaidSize w h).2 ∧
       ((processMermaidSize w h).1 = mermaidMinW ∨ (processMermaidSize w h).2 = mermaidMinH))) := by
  have hA : (0 : ℚ) < mermaidMinW := by norm_num [mermaidMinW, inchPts]
  have hB : (0 : ℚ) < mermaidMinH := by norm_num [mermaidMinH, inchPts]
  have h96w : (0 : ℚ) < w / 96 := by positivity
  have h96h : (0 : ℚ) < h / 96 := by positivity
  set s := min (min (mermaidMaxW / (w / 96)) (mermaidMaxH / (h / 96))) 1 with hs
  have hspos : (0 : ℚ) < s := by
    rw [hs]
    have h1 : (0 : ℚ) < mermaidMaxW / (w / 96) :=
      div_pos (by norm_num [mermaidMaxW, inchPts]) h96w
    have h2 : (0 : ℚ) < mermaidMaxH / (h / 96) :=
      div_pos (by norm_num [mermaidMaxH, inchPts]) h96h
    simp only [lt_min_iff]
    exact ⟨⟨h1, h2⟩, by norm_num⟩
  set a := w / 96 * s with ha
  set b := h / 96 * s with hb
  have hapos : (0 : ℚ) < a := by rw [ha]; exact mul_pos h96w hspos
  have hbpos : (0 : ℚ) < b := by rw [hb]; exact mul_pos h96h hspos
  have hane : a ≠ 0 := ne_of_gt hapos
  have hbne : b ≠ 0 := ne_of_gt hbpos
  have key : a * h = b * w := by rw [ha, hb]; ring
  constructor
  · rintro ⟨hge1, hge2⟩
    have heq : processMermaidSize w h = (a, b) := by
      simp only [processMermaidSize]
      rw [← hs, ← ha, ← hb]
      rw [if_neg (not_lt.mpr hge1)]
      dsimp only
      rw [if_neg (not_lt.mpr hge2)]
    exact heq
  · intro hlow
    by_cases h1 : a < mermaidMinW
    · by_cases h2 : b * (mermaidMinW / a) < mermaidMinH
      · have hq : (0 : ℚ) < b * (mermaidMinW / a) := mul_pos hbpos (div_pos hA hapos)
        have hqne : b * (mermaidMinW / a) ≠ 0 := ne_of_gt hq
        have heq : processMermaidSize w h =
            (mermaidMinW * (mermaidMinH / (b * (mermaidMinW / a))), mermaidMinH) := by
          simp only [processMermaidSize]
          rw [← hs, ← ha, ← hb]
          rw [if_pos h1]
          dsimp only
          rw [if_pos h2]
        rw [heq]
        dsimp only
        have h1lt : (1 : ℚ) < mermaidMinH / (b * (mermaidMinW / a)) := (one_lt_div hq).mpr h2
        refine ⟨?_, ?_, le_refl _, Or.inr rfl⟩
        · field_simp
          linear_combination mermaidMinW * mermaidMinH * key
        · calc mermaidMinW = mermaidMinW * 1 := by ring
            _ ≤ mermaidMinW * (mermaidMinH / (b * (mermaidMinW / a))) :=
              mul_le_mul_of_nonneg_left (le_of_lt h1lt) (le_of_lt hA)
      · have heq : processMermaidSize w h = (mermaidMinW, b * (mermaidMinW / a)) := by
          simp only [processMermaidSize]
          rw [← hs, ← ha, ← hb]
          rw [if_pos h1]
          dsimp only
          rw [if_neg h2]
        rw [heq]
        dsimp only
        refine ⟨?_, le_refl _, not_lt.mp h2, Or.inl rfl⟩
        · field_simp
          linear_combination mermaidMinW * key
    · by_cases h2 : b < mermaidMinH
      · have heq : processMermaidSize w h = (a * (mermaidMinH / b), mermaidMinH) := by
          simp only [processMermaidSize]
          rw [← hs, ← ha, ← hb]
          rw [if_neg h1]
          dsimp only
          rw [if_pos h2]
        rw [heq]
        dsimp only
        have h1lt : (1 : ℚ) < mermaidMinH / b := (one_lt_div hbpos).mpr h2
        refine ⟨?_, ?_, le_refl _, Or.inr rfl⟩
        · field_simp
          linear_combination mermaidMinH * key
        · calc mermaidMinW ≤ a := not_lt.mp h1
            _ = a * 1 := by ring
            _ ≤ a * (mermaidMinH / b) :=
              mul_le_mul_of_nonneg_left (le_of_lt h1lt) (le_of_lt hapos)
      · rcases hlow with hl | hl
        · exact absurd hl h1
        · exact absurd hl h2

/-- Witness for the amended C3 at the square raster 96 by 96 (the
below-floor branch). -/
theorem c3_witness :
    ((96 : ℚ) / 96 * min (min (mermaidMaxW / ((96 : ℚ) / 96)) (mermaidMaxH / ((96 : ℚ) / 96))) 1
        < mermaidMinW ∨
     (96 : ℚ) / 96 * min (min (mermaidMaxW / ((96 : ℚ) / 96)) (mermaidMaxH / ((96 : ℚ) / 96))) 1
        < mermaidMinH) ∧
    (processMermaidSize 96 96).1 * 96 = (processMermaidSize 96 96).2 * 96 ∧
    mermaidMinW ≤ (processMermaidSize 96 96).1 ∧
    mermaidMinH ≤ (processMermaidSize 96 96).2 := by
  have hpre : (96 : ℚ) / 96 *
      min (min (mermaidMaxW / ((96 : ℚ) / 96)) (mermaidMaxH / ((96 : ℚ) / 96))) 1
        < mermaidMinW := by
    norm_num [mermaidMaxW, mermaidMaxH, mermaidMinW, inchPts, min_def]
  have h := (c3_scaling_amended 96 96 (by norm_num) (by norm_num)).2 (Or.inl hpre)
  exact ⟨Or.inl hpre, h.1, h.2.1, h.2.2.1⟩

/-! Helper lemmas for the mermaid extraction claim. -/

/-- `joinSep` over a cons with a non-empty tail. -/
theorem joinSep_cons (sep : PyStr) (x : PyStr) (ys : List PyStr) (h : ys ≠ []) :
    joinSep sep (x :: ys) = x ++ sep ++ joinSep sep ys := by
  cases ys with
  | nil => exact absurd rfl h
  | cons y ys2 => rfl

/-- `joinSep` over a snoc with a non-empty front. -/
theorem joinSep_concat (sep : PyStr) (bs : List PyStr) (c : PyStr) (h : bs ≠ []) :
    joinSep sep (bs ++ [c]) = joinSep sep bs ++ sep ++ c := by
  induction bs with
  | nil => exact absurd rfl h
  | cons x bs2 ih =>
    cases bs2 with
    | nil => rfl
    | cons y bs3 =>
      rw [List.cons_append, joinSep_cons sep x ((y :: bs3) ++ [c]) (by simp)]
      rw [ih (by simp)]
      rw [joinSep_cons sep x (y :: bs3) (by simp)]
      simp [List.append_assoc]

/-- Splitting on an absent separator returns the whole string. -/
theorem splitOnChar_no_sep (sep : Char) (s : PyStr) (h : sep ∉ s) :
    splitOnChar sep s = [s] := by
  induction s with
  | nil => rfl
  | cons c cs ih =>
    have hc : ¬ c = sep := fun he => h (he ▸ List.mem_cons_self c cs)
    simp only [splitOnChar, hc, if_false]
    rw [ih (fun hm => h (List.mem_cons_of_mem c hm))]

/-- Splitting at the first separator occurrence after a clean prefix. -/
theorem splitOnChar_append (sep : Char) (a rest : PyStr) (h : sep ∉ a) :
    splitOnChar sep (a ++ sep :: rest) = a :: splitOnChar sep rest := by
  induction a with
  | nil => simp [splitOnChar]
  | cons c a2 ih =>
    have hc : ¬ c = sep := fun he => h (he ▸ List.mem_cons_self _ _)
    simp only [List.cons_append, splitOnChar, hc, if_false, List.append_eq]
    rw [ih (fun hm => h (List.mem_cons_of_mem c hm))]

/-- `splitLines` inverts `joinLines` on newline-free lines. -/
theorem splitLines_joinLines (ls : List PyStr) (hne : ls ≠ [])
    (h : ∀ l ∈ ls, Char.ofNat 10 ∉ l) : splitLines (joinLines ls) = ls := by
  induction ls with
  | nil => exact absurd rfl hne
  | cons x ls2 ih =>
    cases ls2 with
    | nil => exact splitOnChar_no_sep _ x (h x (List.mem_cons_self _ _))
    | cons y ls3 =>
      simp only [joinLines]
      rw [joinSep_cons _ x (y :: ls3) (by simp)]
      rw [List.append_assoc, List.singleton_append]
      simp only [splitLines]
      rw [splitOnChar_append _ x _ (h x (List.mem_cons_self _ _))]
      have hrec := ih (by simp) (fun l hl => h l (List.mem_cons_of_mem x hl))
      simp only [splitLines, joinLines] at hrec
      rw [hrec]

/-- Mapping an identity-on-members function is the identity. -/
theorem map_cleanLine_id (bs : List PyStr) (h : ∀ l ∈ bs, cleanMarkdownLine l = l) :
    bs.map cleanMarkdownLine = bs := by
  induction bs with
  | nil => rfl
  | cons x bs2 ih =>
    simp only [List.map_cons]
    rw [h x (List.mem_cons_self _ _), ih (fun l hl => h l (List.mem_cons_of_mem x hl))]

/-- A matcher that needs a trigger character at the head fires nowhere in
a string free of that character. -/
theorem noMatch_of_head_req (m : InlineMatch) (trig : Char)
    (hm : ∀ (prev : Option Char) (c : Char) (cs : PyStr), ¬ c = trig → m prev (c :: cs) = none) :
    ∀ (f : Nat) (prev : Option Char) (s : PyStr), trig ∉ s → hasMatch m f prev s = false := by
  intro f
  induction f with
  | zero => intro prev s _; rfl
  | succ f ih =>
    intro prev s h
    cases s with
    | nil => rfl
    | cons c cs =>
      have hc : ¬ c = trig := fun he => h (he ▸ List.mem_cons_self _ _)
      simp only [hasMatch, hm prev c cs hc, Option.isSome_none, Bool.false_or]
      exact ih (some c) cs (fun hm2 => h (List.mem_cons_of_mem c hm2))

/-- The lazy bold matcher needs an asterisk at the head. -/
theorem tryBoldLazy_none (prev : Option Char) (c : Char) (cs : PyStr) (hc : ¬ c = '*') :
    tryBoldLazy prev (c :: cs) = none := by
  have hb : (('*' : Char) == c) = false := beq_eq_false_iff_ne.mpr (fun he => hc he.symm)
  unfold tryBoldLazy
  rw [if_neg (by simp [List.isPrefixOf, hb])]

/-- The lazy italic matcher needs an asterisk at the head. -/
theorem tryItalLazy_none (prev : Option Char) (c : Char) (cs : PyStr) (hc : ¬ c = '*') :
    tryItalLazy prev (c :: cs) = none := by
  have hb : (('*' : Char) == c) = false := beq_eq_false_iff_ne.mpr (fun he => hc he.symm)
  unfold tryItalLazy
  rw [if_neg (by simp [List.isPrefixOf, hb])]

/-- The lazy code matcher needs a backtick at the head. -/
theorem tryCodeLazy_none (prev : Option Char) (c : Char) (cs : PyStr) (hc : ¬ c = btick) :
    tryCodeLazy prev (c :: cs) = none := by
  have hb : ((btick : Char) == c) = false := beq_eq_false_iff_ne.mpr (fun he => hc he.symm)
  unfold tryCodeLazy
  rw [if_neg (by simp [List.isPrefixOf, hb])]

/-- A line with no asterisk and no backtick is fixed by
`_clean_markdown_line`. -/
theorem cleanLine_id_of_chars (l : PyStr) (hstar : '*' ∉ l) (hbt : btick ∉ l) :
    cleanMarkdownLine l = l := by
  have h1 : hasMatch tryBoldLazy l.length none l = false :=
    noMatch_of_head_req _ '*' (fun p c cs hc => tryBoldLazy_none p c cs hc) _ _ _ hstar
  have h2 : hasMatch tryItalLazy l.length none l = false :=
    noMatch_of_head_req _ '*' (fun p c cs hc => tryItalLazy_none p c cs hc) _ _ _ hstar
  have h3 : hasMatch tryCodeLazy l.length none l = false :=
    noMatch_of_head_req _ btick (fun p c cs hc => tryCodeLazy_none p c cs hc) _ _ _ hbt
  have e1 : runSub tryBoldLazy l = l := scanSub_eq_self_of_no_match _ _ _ _ h1
  have e2 : runSub tryItalLazy l = l := scanSub_eq_self_of_no_match _ _ _ _ h2
  have e3 : runSub tryCodeLazy l = l := scanSub_eq_self_of_no_match _ _ _ _ h3
  unfold cleanMarkdownLine
  rw [e1, e2, e3]

/-- Characters of a joined list come from the separator or a member. -/
theorem mem_joinSep (sep : PyStr) (ls : List PyStr) (x : Char) (h : x ∈ joinSep sep ls) :
    x ∈ sep ∨ ∃ l ∈ ls, x ∈ l := by
  induction ls with
  | nil => simp [joinSep] at h
  | cons a ls2 ih =>
    cases ls2 with
    | nil => exact Or.inr ⟨a, by simp, h⟩
    | cons b ls3 =>
      rw [joinSep_cons _ a (b :: ls3) (by simp)] at h
      rcases List.mem_append.mp h with h1 | h2
      · rcases List.mem_append.mp h1 with h3 | h4
        · exact Or.inr ⟨a, by simp, h3⟩
        · exact Or.inl h4
      · rcases ih h2 with h3 | ⟨l, hl, hx⟩
        · exact Or.inl h3
        · exact Or.inr ⟨l, List.mem_cons_of_mem a hl, hx⟩

/-- The closing pattern cannot start inside text that is free of the
`<` character (its second character is `<`, and its first is a newline
that would have to be followed by a `<` from the text). -/
theorem closer_not_prefix (M2 : PyStr) (hne : M2 ≠ []) (hlt : '<' ∉ M2) :
    mermaidCloser.isPrefixOf (M2 ++ mermaidCloser) = false := by
  cases M2 with
  | nil => exact absurd rfl hne
  | cons m M2' =>
    have hcl : mermaidCloser = Char.ofNat 10 :: '<' :: ("code></code>".toList ++ [btick]) := rfl
    by_cases hm : m = Char.ofNat 10
    · cases M2' with
      | nil =>
        subst hm
        decide
      | cons m2 M2'' =>
        have hm2 : ¬ m2 = '<' :=
          fun he => hlt (he ▸ List.mem_cons_of_mem m (List.mem_cons_self _ _))
        have hb : (('<' : Char) == m2) = false := beq_eq_false_iff_ne.mpr (fun he => hm2 he.symm)
        rw [hcl]
        simp only [List.cons_append, List.isPrefixOf, hb]
        simp
    · have hb : ((Char.ofNat 10 : Char) == m) = false :=
        beq_eq_false_iff_ne.mpr (fun he => hm he.symm)
      rw [hcl]
      simp only [List.cons_append, List.isPrefixOf, hb]
      simp

/-- The lazy scan for the closing pattern stops exactly at the boundary
when the body is free of `<`. -/
theorem takeUntilSub_boundary (M : PyStr) (hlt : '<' ∉ M) :
    takeUntilSub mermaidCloser (M ++ mermaidCloser) = some (M, []) := by
  induction M with
  | nil => decide
  | cons c M' ih =>
    have hc : mermaidCloser.isPrefixOf (c :: (M' ++ mermaidCloser)) = false := by
      have := closer_not_prefix (c :: M') (by simp) hlt
      rw [List.cons_append] at this
      exact this
    simp only [List.cons_append, takeUntilSub, List.append_eq]
    rw [if_neg (by simp [hc])]
    rw [ih (fun hm => hlt (List.mem_cons_of_mem c hm))]

/-- Exhausting fuel on an empty string yields no blocks. -/
theorem extractMermaidGo_nil (f : Nat) : extractMermaidGo f [] = [] := by
  cases f with
  | zero => rfl
  | succ f => rfl

/-- Extraction of a single cleaned mermaid block whose body is free of
the `<` character. -/
theorem extract_single (M : PyStr) (hlt : '<' ∉ M) :
    extractMermaidBlocks (mermaidOpener ++ (M ++ mermaidCloser)) = [M] := by
  have hopen : mermaidOpener.isPrefixOf (mermaidOpener ++ (M ++ mermaidCloser)) = true := by
    rw [List.isPrefixOf_iff_prefix]
    exact List.prefix_append _ _
  have hbound := takeUntilSub_boundary M hlt
  have hcons : mermaidOpener ++ (M ++ mermaidCloser) =
      '<' :: ("code></code>".toList ++ [btick] ++ "mermaid".toList ++ [Char.ofNat 10] ++
        (M ++ mermaidCloser)) := by
    simp [mermaidOpener]
  unfold extractMermaidBlocks
  obtain ⟨f, hf⟩ : ∃ f, (mermaidOpener ++ (M ++ mermaidCloser)).length = f + 1 :=
    ⟨(mermaidOpener ++ (M ++ mermaidCloser)).length - 1, by
      have : 0 < (mermaidOpener ++ (M ++ mermaidCloser)).length := by
        rw [hcons]; simp
      omega⟩
  rw [hf, hcons]
  simp only [extractMermaidGo]
  rw [← hcons]
  rw [if_pos hopen]
  rw [List.drop_left]
  rw [hbound]
  show M :: extractMermaidGo f [] = [M]
  rw [extractMermaidGo_nil]

/-- Counterexample to Claim C5: for the document whose fenced mermaid
block body is `graph TD`, newline, `A[**x**]` (17 characters), the text
captured for the renderer by `_process_markdown_content` is
`graph TD`, newline, `A[<b>x</b>]` (20 characters): the cleaning pass ran
inline bold rewriting over the fenced body before extraction, so the
handed-over text is not the verbatim fenced text. -/
theorem c5_counterexample :
    extractMermaidBlocks (cleanMarkdownForPdf
        ("```mermaid\ngraph TD\nA[**x**]\n```".toList)) =
      ["graph TD\nA[<b>x</b>]".toList] ∧
    ("graph TD\nA[<b>x</b>]".toList).length = 20 ∧
    ("graph TD\nA[**x**]".toList).length = 17 := by
  refine ⟨by decide, by decide, by decide⟩

/-- Claim C5 amended: the text handed to the external renderer is the
fenced body after the per-line inline rewriting of
`clean_markdown_for_pdf` (which runs before extraction), not the verbatim
original; when every body line is free of asterisks, backticks and the
`<` character (so no inline rewriting applies) and is not table-like, the
body is passed through verbatim. -/
theorem c5_extraction_after_cleaning (bs : List PyStr) (hne : bs ≠ [])
    (h : ∀ l ∈ bs, Char.ofNat 10 ∉ l ∧ '*' ∉ l ∧ btick ∉ l ∧ '<' ∉ l ∧
      isTableRow (pyStrip l) = false ∧ isTableSepStr (pyStrip l) = false) :
    extractMermaidBlocks (cleanMarkdownForPdf
      (joinLines ("```mermaid".toList :: bs ++ ["```".toList]))) = [joinLines bs] := by
  have hL : splitLines (joinLines ("```mermaid".toList :: bs ++ ["```".toList]))
      = "```mermaid".toList :: bs ++ ["```".toList] := by
    apply splitLines_joinLines _ (by simp)
    intro l hl
    rcases List.mem_cons.mp hl with h1 | h2
    · rw [h1]; decide
    · rcases List.mem_append.mp h2 with h3 | h4
      · exact (h l h3).1
      · simp only [List.mem_singleton] at h4
        rw [h4]; decide
  have hclean : cleanMarkdownForPdf (joinLines ("```mermaid".toList :: bs ++ ["```".toList]))
      = joinLines (("```mermaid".toList :: bs ++ ["```".toList]).map cleanMarkdownLine) := by
    unfold cleanMarkdownForPdf
    rw [hL]
    rw [cleanLoop_no_table]
    intro l hl
    rcases List.mem_cons.mp hl with h1 | h2
    · rw [h1]; exact ⟨by decide, by decide⟩
    · rcases List.mem_append.mp h2 with h3 | h4
      · exact ⟨(h l h3).2.2.2.2.1, (h l h3).2.2.2.2.2⟩
      · simp only [List.mem_singleton] at h4
        rw [h4]; exact ⟨by decide, by decide⟩
  have hmap : ("```mermaid".toList :: bs ++ ["```".toList]).map cleanMarkdownLine
      = "<code></code>`mermaid".toList :: bs ++ ["<code></code>`".toList] := by
    simp only [List.map_cons, List.map_append, List.map_nil]
    rw [show cleanMarkdownLine ("```mermaid".toList) = "<code></code>`mermaid".toList by decide]
    rw [show cleanMarkdownLine ("```".toList) = "<code></code>`".toList by decide]
    rw [map_cleanLine_id bs (fun l hl => cleanLine_id_of_chars l (h l hl).2.1 (h l hl).2.2.1)]
  have hA : "<code></code>`mermaid".toList ++ [Char.ofNat 10] = mermaidOpener := by decide
  have hB : [Char.ofNat 10] ++ "<code></code>`".toList = mermaidCloser := by decide
  have hjoin : joinLines ("<code></code>`mermaid".toList :: bs ++ ["<code></code>`".toList])
      = mermaidOpener ++ (joinLines bs ++ mermaidCloser) := by
    simp only [joinLines]
    rw [List.cons_append]
    rw [joinSep_cons _ _ _ (show bs ++ ["<code></code>`".toList] ≠ [] by simp)]
    rw [joinSep_concat _ bs _ hne]
    rw [← hA, ← hB]
    simp [List.append_assoc]
  rw [hclean, hmap, hjoin]
  apply extract_single
  intro hmem
  rcases mem_joinSep _ _ _ hmem with h1 | ⟨l, hl, hx⟩
  · simp only [List.mem_singleton] at h1
    exact absurd h1 (by decide)
  · exact (h l hl).2.2.2.1 hx

/-- Witness for the amended C5 on a one-line construct-free body. -/
theorem c5_witness :
    extractMermaidBlocks (cleanMarkdownForPdf
      (joinLines ("```mermaid".toList :: ["graph TD".toList] ++ ["```".toList])))
      = [joinLines ["graph TD".toList]] := by
  apply c5_extraction_after_cleaning ["graph TD".toList] (by simp)
  intro l hl
  simp only [List.mem_singleton] at hl
  subst hl
  exact ⟨by decide, by decide, by decide, by decide, by decide, by decide⟩

/-! Helper lemmas for the table round-trip claim. -/

/-- `dropWhile` is the identity when the head fails the predicate. -/
theorem dropWhile_eq_self_of_head (p : Char → Bool) (s : PyStr)
    (h : ∀ c, s.head? = some c → p c = false) : s.dropWhile p = s := by
  cases s with
  | nil => rfl
  | cons c cs =>
    have := h c rfl
    exact List.dropWhile_cons_of_neg (by simp [this])

/-- Stripping does nothing when both ends fail the whitespace test. -/
theorem pyStrip_eq_self (s : PyStr)
    (hh : ∀ c, s.head? = some c → pyIsSpace c = false)
    (hl : ∀ c, s.getLast? = some c → pyIsSpace c = false) : pyStrip s = s := by
  unfold pyStrip
  rw [dropWhile_eq_self_of_head _ _ hh]
  rw [dropWhile_eq_self_of_head _ _ (fun c hc => hl c (by rw [← List.head?_reverse]; exact hc))]
  exact List.reverse_reverse s

/-- The head of a `dropWhile` result fails the predicate. -/
theorem head?_dropWhile (p : Char → Bool) (s : PyStr) (c : Char)
    (h : (s.dropWhile p).head? = some c) : p c = false := by
  induction s with
  | nil => simp at h
  | cons a cs ih =>
    by_cases hp : p a
    · rw [List.dropWhile_cons_of_pos hp] at h
      exact ih h
    · rw [List.dropWhile_cons_of_neg hp] at h
      simp only [List.head?_cons, Option.some.injEq] at h
      rw [← h]
      exact Bool.eq_false_iff.mpr hp

/-- A non-empty `dropWhile` result keeps the original last element. -/
theorem getLast?_dropWhile (p : Char → Bool) (s : PyStr)
    (h : s.dropWhile p ≠ []) : (s.dropWhile p).getLast? = s.getLast? := by
  induction s with
  | nil => simp at h
  | cons a cs ih =>
    by_cases hp : p a
    · rw [List.dropWhile_cons_of_pos hp] at h ⊢
      rw [ih h]
      cases hcs : cs with
      | nil => rw [hcs] at h; simp at h
      | cons b bs => rw [← hcs]; rw [hcs]; exact (List.getLast?_cons_cons).symm
    · rw [List.dropWhile_cons_of_neg hp]

/-- Both ends of a stripped string fail the whitespace test. -/
theorem pyStrip_ends (s : PyStr) :
    (∀ c, (pyStrip s).head? = some c → pyIsSpace c = false) ∧
    (∀ c, (pyStrip s).getLast? = some c → pyIsSpace c = false) := by
  constructor
  · intro c hc
    unfold pyStrip at hc
    rw [List.head?_reverse] at hc
    by_cases hne : (s.dropWhile pyIsSpace).reverse.dropWhile pyIsSpace = []
    · rw [hne] at hc; simp at hc
    · rw [getLast?_dropWhile _ _ hne] at hc
      rw [List.getLast?_reverse] at hc
      exact head?_dropWhile _ _ _ hc
  · intro c hc
    unfold pyStrip at hc
    rw [List.getLast?_reverse] at hc
    exact head?_dropWhile _ _ _ hc

/-- Stripping is idempotent. -/
theorem pyStrip_idem (s : PyStr) : pyStrip (pyStrip s) = pyStrip s :=
  pyStrip_eq_self _ (pyStrip_ends s).1 (pyStrip_ends s).2

/-- Characters of a stripped string come from the original. -/
theorem mem_of_mem_pyStrip {s : PyStr} {x : Char} (h : x ∈ pyStrip s) : x ∈ s := by
  unfold pyStrip at h
  rw [List.mem_reverse] at h
  have h2 := mem_of_mem_dropWhile h
  rw [List.mem_reverse] at h2
  exact mem_of_mem_dropWhile h2

/-- `splitOnChar` never returns an empty list of pieces. -/
theorem splitOnChar_ne_nil (sep : Char) (s : PyStr) : splitOnChar sep s ≠ [] := by
  cases s with
  | nil => simp [splitOnChar]
  | cons c cs =>
    simp only [splitOnChar]
    by_cases hc : c = sep
    · simp [hc]
    · rw [if_neg hc]
      cases splitOnChar sep cs with
      | nil => simp
      | cons p ps => simp

/-- Pieces of a split contain no separator. -/
theorem splitOnChar_pieces_no_sep (sep : Char) (s : PyStr) :
    ∀ p ∈ splitOnChar sep s, sep ∉ p := by
  induction s with
  | nil => intro p hp; simp [splitOnChar] at hp; simp [hp]
  | cons c cs ih =>
    intro p hp
    simp only [splitOnChar] at hp
    by_cases hc : c = sep
    · rw [if_pos hc] at hp
      rcases List.mem_cons.mp hp with h1 | h2
      · simp [h1]
      · exact ih p h2
    · rw [if_neg hc] at hp
      cases hsc : splitOnChar sep cs with
      | nil => exact absurd hsc (splitOnChar_ne_nil sep cs)
      | cons q qs =>
        rw [hsc] at hp
        rcases List.mem_cons.mp hp with h1 | h2
        · rw [h1]
          intro hmem
          rcases List.mem_cons.mp hmem with h3 | h4
          · exact hc h3.symm
          · exact ih q (hsc ▸ List.mem_cons_self q qs) h4
        · exact ih p (hsc ▸ List.mem_cons_of_mem q h2)

/-- Characters of split pieces come from the original string. -/
theorem splitOnChar_pieces_subset (sep : Char) (s : PyStr) :
    ∀ p ∈ splitOnChar sep s, ∀ x ∈ p, x ∈ s := by
  induction s with
  | nil => intro p hp x hx; simp [splitOnChar] at hp; rw [hp] at hx; simp at hx
  | cons c cs ih =>
    intro p hp x hx
    simp only [splitOnChar] at hp
    by_cases hc : c = sep
    · rw [if_pos hc] at hp
      rcases List.mem_cons.mp hp with h1 | h2
      · rw [h1] at hx; simp at hx
      · exact List.mem_cons_of_mem c (ih p h2 x hx)
    · rw [if_neg hc] at hp
      cases hsc : splitOnChar sep cs with
      | nil => exact absurd hsc (splitOnChar_ne_nil sep cs)
      | cons q qs =>
        rw [hsc] at hp
        rcases List.mem_cons.mp hp with h1 | h2
        · rw [h1] at hx
          rcases List.mem_cons.mp hx with h3 | h4
          · exact h3 ▸ List.mem_cons_self c cs
          · exact List.mem_cons_of_mem c (ih q (hsc ▸ List.mem_cons_self q qs) x h4)
        · exact List.mem_cons_of_mem c (ih p (hsc ▸ List.mem_cons_of_mem q h2) x hx)

/-- A string containing the separator splits into at least two pieces. -/
theorem splitOnChar_length_ge_two (sep : Char) (s : PyStr) (h : sep ∈ s) :
    2 ≤ (splitOnChar sep s).length := by
  induction s with
  | nil => simp at h
  | cons c cs ih =>
    simp only [splitOnChar]
    by_cases hc : c = sep
    · rw [if_pos hc]
      have h1 : (splitOnChar sep cs).length ≥ 1 := by
        cases hsc : splitOnChar sep cs with
        | nil => exact absurd hsc (splitOnChar_ne_nil sep cs)
        | cons q qs => simp
      simp only [List.length_cons]
      omega
    · rw [if_neg hc]
      have hmem : sep ∈ cs := by
        rcases List.mem_cons.mp h with h1 | h2
        · exact absurd h1.symm hc
        · exact h2
      cases hsc : splitOnChar sep cs with
      | nil => exact absurd hsc (splitOnChar_ne_nil sep cs)
      | cons q qs =>
        have := ih hmem
        rw [hsc] at this
        simp only [List.length_cons] at this ⊢
        omega

/-- Stripping ignores a leading space. -/
theorem pyStrip_cons_space (s : PyStr) : pyStrip (' ' :: s) = pyStrip s := by
  unfold pyStrip
  rw [List.dropWhile_cons_of_pos (by decide : pyIsSpace ' ' = true)]

/-- Stripping ignores a trailing space. -/
theorem pyStrip_append_space (s : PyStr) : pyStrip (s ++ [' ']) = pyStrip s := by
  unfold pyStrip
  by_cases he : (s.dropWhile pyIsSpace).isEmpty
  · rw [List.dropWhile_append, if_pos he]
    have h1 : (([' '] : PyStr).dropWhile pyIsSpace) = [] := by decide
    have h2 : s.dropWhile pyIsSpace = [] := by simpa using he
    rw [h1, h2]
  · rw [List.dropWhile_append, if_neg he]
    rw [List.reverse_append, List.reverse_singleton, List.singleton_append]
    rw [List.dropWhile_cons_of_pos (by decide : pyIsSpace ' ' = true)]

/-- Stripping a space-wrapped cell strips the cell. -/
theorem pyStrip_wrap (c : PyStr) : pyStrip (' ' :: (c ++ [' '])) = pyStrip c := by
  rw [pyStrip_cons_space, pyStrip_append_space]

/-- Mapping a function that fixes every member is the identity. -/
theorem map_id_of_mem (f : PyStr → PyStr) (bs : List PyStr) (h : ∀ l ∈ bs, f l = l) :
    bs.map f = bs := by
  induction bs with
  | nil => rfl
  | cons x bs2 ih =>
    simp only [List.map_cons]
    rw [h x (List.mem_cons_self _ _), ih (fun l hl => h l (List.mem_cons_of_mem x hl))]

/-- The constructed table line in head-plus-final-pipe form. -/
theorem rowLineOf_eq (cells : List PyStr) :
    rowLineOf cells = ('|' :: ' ' :: (joinSep (" | ".toList) cells ++ [' '])) ++ ['|'] := by
  simp [rowLineOf, List.append_assoc]

/-- A constructed table line starts with a pipe. -/
theorem rowLineOf_head (cells : List PyStr) : (rowLineOf cells).head? = some '|' := by
  rw [rowLineOf_eq]; rfl

/-- A constructed table line ends with a pipe. -/
theorem rowLineOf_getLast (cells : List PyStr) : (rowLineOf cells).getLast? = some '|' := by
  rw [rowLineOf_eq]; exact List.getLast?_concat _

/-- Interior of a constructed table line. -/
theorem rowLineOf_interior (cells : List PyStr) :
    (rowLineOf cells).tail.dropLast = ' ' :: (joinSep (" | ".toList) cells ++ [' ']) := by
  rw [rowLineOf_eq]
  show ((' ' :: (joinSep (" | ".toList) cells ++ [' '])) ++ ['|']).dropLast = _
  exact List.dropLast_concat

/-- A constructed table line is already stripped. -/
theorem pyStrip_rowLineOf (cells : List PyStr) :
    pyStrip (rowLineOf cells) = rowLineOf cells := by
  apply pyStrip_eq_self
  · intro c hc
    rw [rowLineOf_head] at hc
    rw [← Option.some.inj hc]
    decide
  · intro c hc
    rw [rowLineOf_getLast] at hc
    rw [← Option.some.inj hc]
    decide

/-- A constructed table line is newline-free when the cells are. -/
theorem rowLineOf_no_nl (cells : List PyStr) (h : ∀ c ∈ cells, Char.ofNat 10 ∉ c) :
    Char.ofNat 10 ∉ rowLineOf cells := by
  rw [rowLineOf_eq]
  intro hmem
  rcases List.mem_append.mp hmem with h1 | h2
  · rcases List.mem_cons.mp h1 with h3 | h4
    · exact absurd h3 (by decide)
    · rcases List.mem_cons.mp h4 with h5 | h6
      · exact absurd h5 (by decide)
      · rcases List.mem_append.mp h6 with h7 | h8
        · rcases mem_joinSep _ _ _ h7 with h9 | ⟨l, hl, hx⟩
          · rcases List.mem_cons.mp h9 with h10 | h11
            · exact absurd h10 (by decide)
            · rcases List.mem_cons.mp h11 with h12 | h13
              · exact absurd h12 (by decide)
              · rcases List.mem_cons.mp h13 with h14 | h15
                · exact absurd h14 (by decide)
                · simp at h15
          · exact h l hl hx
        · simp only [List.mem_singleton] at h8
          exact absurd h8 (by decide)
  · simp only [List.mem_singleton] at h2
    exact absurd h2 (by decide)

/-- Splitting the interior of a constructed line recovers the
space-wrapped cells. -/
theorem split_wrap (cells : List PyStr) (hne : cells ≠ []) (hp : ∀ c ∈ cells, '|' ∉ c) :
    splitOnChar '|' (' ' :: (joinSep (" | ".toList) cells ++ [' '])) =
      cells.map (fun c => ' ' :: (c ++ [' '])) := by
  induction cells with
  | nil => exact absurd rfl hne
  | cons c cells' ih =>
    cases cells' with
    | nil =>
      show splitOnChar '|' (' ' :: (c ++ [' '])) = [' ' :: (c ++ [' '])]
      apply splitOnChar_no_sep
      intro hmem
      rcases List.mem_cons.mp hmem with h1 | h2
      · exact absurd h1 (by decide)
      · rcases List.mem_append.mp h2 with h3 | h4
        · exact hp c (by simp) h3
        · simp only [List.mem_singleton] at h4
          exact absurd h4 (by decide)
    | cons c2 cells'' =>
      have hjoin : (' ' :: (joinSep (" | ".toList) (c :: c2 :: cells'') ++ [' ']))
          = (' ' :: (c ++ [' '])) ++
            '|' :: (' ' :: (joinSep (" | ".toList) (c2 :: cells'') ++ [' '])) := by
        rw [joinSep_cons _ c (c2 :: cells'') (by simp)]
        rw [show (" | ".toList : PyStr) = [' ', '|', ' '] from rfl]
        simp [List.append_assoc]
      rw [hjoin]
      rw [splitOnChar_append]
      · rw [ih (by simp) (fun x hx => hp x (List.mem_cons_of_mem c hx))]
        simp
      · intro hmem
        rcases List.mem_cons.mp hmem with h1 | h2
        · exact absurd h1 (by decide)
        · rcases List.mem_append.mp h2 with h3 | h4
          · exact hp c (by simp) h3
          · simp only [List.mem_singleton] at h4
            exact absurd h4 (by decide)

/-- With at least two cells, the constructed line is a table row. -/
theorem rowLineOf_isTableRow (cells : List PyStr) (h2 : 2 ≤ cells.length) :
    isTableRow (rowLineOf cells) = true := by
  have hpipe : '|' ∈ (rowLineOf cells).tail.dropLast := by
    rw [rowLineOf_interior]
    cases cells with
    | nil => simp at h2
    | cons c cells' =>
      cases cells' with
      | nil => simp at h2
      | cons c2 cells'' =>
        rw [joinSep_cons _ c (c2 :: cells'') (by simp)]
        apply List.mem_cons_of_mem
        apply List.mem_append.mpr
        apply Or.inl
        apply List.mem_append.mpr
        apply Or.inl
        apply List.mem_append.mpr
        exact Or.inr (by decide)
  simp only [isTableRow, Bool.and_eq_true, decide_eq_true_eq]
  exact ⟨⟨rowLineOf_head cells, rowLineOf_getLast cells⟩, hpipe⟩

/-- The regenerated separator line satisfies the separator test. -/
theorem isTableSepStr_sepLine (headers : List PyStr) (hne : headers ≠ []) :
    isTableSepStr (rowLineOf (headers.map (fun _ => "---".toList))) = true := by
  have hcne : headers.map (fun _ => ("---".toList : PyStr)) ≠ [] := by
    intro he
    exact hne (List.map_eq_nil_iff.mp he)
  have hcp : ∀ c ∈ headers.map (fun _ => ("---".toList : PyStr)), '|' ∉ c := by
    intro c hc
    rcases List.mem_map.mp hc with ⟨x, _, hx⟩
    rw [← hx]
    decide
  simp only [isTableSepStr, pyStrip_rowLineOf]
  simp only [rowLineOf_interior, Bool.and_eq_true, decide_eq_true_eq]
  refine ⟨⟨rowLineOf_head _, rowLineOf_getLast _⟩, ?_⟩
  rw [split_wrap _ hcne hcp]
  rw [List.all_eq_true]
  intro p hp
  rcases List.mem_map.mp hp with ⟨x, hx, hxp⟩
  rcases List.mem_map.mp hx with ⟨y, _, hy⟩
  rw [← hxp, ← hy]
  decide

/-- Parsing a constructed table line recovers the cells. -/
theorem parseTableRow_rowLineOf (cells : List PyStr) (hne : cells ≠ [])
    (hp : ∀ c ∈ cells, '|' ∉ c) (hs : ∀ c ∈ cells, pyStrip c = c) :
    parseTableRow (rowLineOf cells) = cells := by
  simp only [parseTableRow]
  rw [if_pos (rowLineOf_head cells)]
  have htail : (rowLineOf cells).tail
      = (' ' :: (joinSep (" | ".toList) cells ++ [' '])) ++ ['|'] := by
    rw [rowLineOf_eq]
    rfl
  rw [htail]
  rw [if_pos (List.getLast?_concat _)]
  rw [List.dropLast_concat]
  rw [split_wrap cells hne hp]
  rw [List.map_map]
  apply map_id_of_mem
  intro l hl
  show pyStrip (' ' :: (l ++ [' '])) = l
  rw [pyStrip_wrap]
  exact hs l hl

/-- The row loop consumes exactly the constructed row lines. -/
theorem grabRows_rowLines (rows : List (List PyStr)) (n : Nat) (h2 : 2 ≤ n)
    (h : ∀ r ∈ rows, r.length = n ∧ ∀ c ∈ r, pyStrip c = c ∧ '|' ∉ c) :
    grabRows (rows.map rowLineOf) = (rows, []) := by
  induction rows with
  | nil => rfl
  | cons r rows' ih =>
    obtain ⟨hlen, hcells⟩ := h r (List.mem_cons_self _ _)
    have hne : r ≠ [] := by
      intro he
      rw [he] at hlen
      simp at hlen
      omega
    have hrow : isTableRow (pyStrip (rowLineOf r)) = true := by
      rw [pyStrip_rowLineOf]
      exact rowLineOf_isTableRow r (by omega)
    simp only [List.map_cons, grabRows, hrow, if_true]
    rw [pyStrip_rowLineOf]
    rw [parseTableRow_rowLineOf r hne (fun c hc => (hcells c hc).2) (fun c hc => (hcells c hc).1)]
    rw [ih (fun x hx => h x (List.mem_cons_of_mem r hx))]

/-- Lines left over by the row loop come from the input. -/
theorem grabRows_snd_subset (ls : List PyStr) :
    ∀ x ∈ (grabRows ls).2, x ∈ ls := by
  induction ls with
  | nil => intro x hx; simp [grabRows] at hx
  | cons l ls' ih =>
    intro x hx
    simp only [grabRows] at hx
    by_cases hr : isTableRow (pyStrip l) = true
    · rw [if_pos hr] at hx
      exact List.mem_cons_of_mem l (ih x hx)
    · rw [if_neg hr] at hx
      exact hx

/-- Lines after the separator skip come from the input. -/
theorem skipSeparator_subset (ls : List PyStr) :
    ∀ x ∈ skipSeparator ls, x ∈ ls := by
  cases ls with
  | nil => intro x hx; simp [skipSeparator] at hx
  | cons l ls' =>
    intro x hx
    simp only [skipSeparator] at hx
    by_cases hs : isTableSepStr l = true
    · rw [if_pos hs] at hx
      exact List.mem_cons_of_mem l hx
    · rw [if_neg hs] at hx
      exact hx

/-- Every grabbed row is the parse of some input line. -/
theorem grabRows_fst_from (ls : List PyStr) :
    ∀ r ∈ (grabRows ls).1, ∃ l ∈ ls, r = parseTableRow (pyStrip l) := by
  induction ls with
  | nil => intro r hr; simp [grabRows] at hr
  | cons l ls' ih =>
    intro r hr
    simp only [grabRows] at hr
    by_cases hrow : isTableRow (pyStrip l) = true
    · rw [if_pos hrow] at hr
      rcases List.mem_cons.mp hr with h1 | h2
      · exact ⟨l, List.mem_cons_self _ _, h1⟩
      · obtain ⟨l2, hl2, he⟩ := ih r h2
        exact ⟨l2, List.mem_cons_of_mem l hl2, he⟩
    · rw [if_neg hrow] at hr
      simp at hr

/-- Cells of a parsed row are stripped, pipe-free, and drawn from the
line. -/
theorem parseTableRow_cells (s : PyStr) :
    ∀ c ∈ parseTableRow s, pyStrip c = c ∧ '|' ∉ c ∧ ∀ x ∈ c, x ∈ s := by
  intro c hc
  have hmem_s1 : ∀ x ∈ (if s.head? = some '|' then s.tail else s), x ∈ s := by
    intro x hx
    by_cases h : s.head? = some '|'
    · rw [if_pos h] at hx
      exact List.mem_of_mem_tail hx
    · rw [if_neg h] at hx
      exact hx
  have hmem_s2 : ∀ x ∈ (if (if s.head? = some '|' then s.tail else s).getLast? = some '|'
      then (if s.head? = some '|' then s.tail else s).dropLast
      else (if s.head? = some '|' then s.tail else s)),
      x ∈ (if s.head? = some '|' then s.tail else s) := by
    intro x hx
    by_cases h : (if s.head? = some '|' then s.tail else s).getLast? = some '|'
    · rw [if_pos h] at hx
      exact List.mem_of_mem_dropLast hx
    · rw [if_neg h] at hx
      exact hx
  simp only [parseTableRow] at hc
  rcases List.mem_map.mp hc with ⟨p, hp, hpc⟩
  refine ⟨?_, ?_, ?_⟩
  · rw [← hpc]
    exact pyStrip_idem p
  · rw [← hpc]
    intro hx
    exact splitOnChar_pieces_no_sep '|' _ p hp (mem_of_mem_pyStrip hx)
  · intro x hx
    rw [← hpc] at hx
    exact hmem_s1 _ (hmem_s2 _
      (splitOnChar_pieces_subset '|' _ p hp x (mem_of_mem_pyStrip hx)))

/-- A line passing the row test parses to at least two cells. -/
theorem parseTableRow_length_ge_two (s : PyStr) (h : isTableRow s = true) :
    2 ≤ (parseTableRow s).length := by
  simp only [isTableRow, Bool.and_eq_true, decide_eq_true_eq] at h
  obtain ⟨⟨hh, hl⟩, hp⟩ := h
  cases s with
  | nil => simp at hh
  | cons a rest =>
    have ha : a = '|' := by simpa using hh
    have hrest_ne : rest ≠ [] := by
      intro he
      rw [he] at hp
      simp at hp
    have hlast : rest.getLast? = some '|' := by
      cases hr : rest with
      | nil => exact absurd hr hrest_ne
      | cons b bs =>
        rw [hr] at hl
        rw [List.getLast?_cons_cons] at hl
        exact hl
    simp only [parseTableRow]
    rw [if_pos (by simp [ha] : (a :: rest).head? = some '|')]
    show 2 ≤ ((splitOnChar '|'
      (if rest.getLast? = some '|' then rest.dropLast else rest)).map pyStrip).length
    rw [if_pos hlast]
    rw [List.length_map]
    exact splitOnChar_length_ge_two '|' rest.dropLast hp

/-- Structural invariants of every table produced by the parsing loop:
at least two header cells, at least one data row, and all cells stripped,
pipe-free and newline-free (for newline-free input lines). -/
theorem parse_invariants :
    ∀ (f : Nat) (ls : List PyStr), (∀ l ∈ ls, Char.ofNat 10 ∉ l) →
      ∀ (ts : List TableBlock), parseTablesLoopF f ls = some ts →
      ∀ t ∈ ts, 2 ≤ t.headers.length ∧ t.rows ≠ [] ∧
        (∀ c ∈ t.headers, pyStrip c = c ∧ '|' ∉ c ∧ Char.ofNat 10 ∉ c) ∧
        (∀ r ∈ t.rows, ∀ c ∈ r, pyStrip c = c ∧ '|' ∉ c ∧ Char.ofNat 10 ∉ c) := by
  intro f
  induction f with
  | zero =>
    intro ls _ ts hts
    simp [parseTablesLoopF] at hts
  | succ f ih =>
    intro ls hnl ts hts
    cases ls with
    | nil =>
      simp only [parseTablesLoopF, Option.some.injEq] at hts
      intro t ht
      rw [← hts] at ht
      simp at ht
    | cons l ls' =>
      simp only [parseTablesLoopF] at hts
      by_cases hr : isTableRow (pyStrip l) = true
      · rw [if_pos hr] at hts
        cases hrec : parseTablesLoopF f (grabRows (skipSeparator ls')).2 with
        | none => rw [hrec] at hts; cases hts
        | some ts' =>
          rw [hrec] at hts
          have hts2 := Option.some.inj hts
          have hnl2 : ∀ x ∈ (grabRows (skipSeparator ls')).2, Char.ofNat 10 ∉ x := by
            intro x hx
            exact hnl x (List.mem_cons_of_mem l
              (skipSeparator_subset _ _ (grabRows_snd_subset _ _ hx)))
          have hrec_inv := ih _ hnl2 ts' hrec
          intro t ht
          rw [← hts2] at ht
          by_cases hemp : (grabRows (skipSeparator ls')).1.isEmpty = true
          · rw [if_pos hemp] at ht
            exact hrec_inv t ht
          · rw [if_neg hemp] at ht
            rcases List.mem_cons.mp ht with h1 | h2
            · subst h1
              refine ⟨parseTableRow_length_ge_two _ hr, ?_, ?_, ?_⟩
              · simpa [List.isEmpty_iff] using hemp
              · intro c hcmem
                have hcc := parseTableRow_cells (pyStrip l) c hcmem
                refine ⟨hcc.1, hcc.2.1, ?_⟩
                intro hx
                exact hnl l (List.mem_cons_self _ _) (mem_of_mem_pyStrip (hcc.2.2 _ hx))
              · intro r hrmem c hcmem
                obtain ⟨lr, hlr, hpr⟩ := grabRows_fst_from _ r hrmem
                rw [hpr] at hcmem
                have hcc := parseTableRow_cells (pyStrip lr) c hcmem
                refine ⟨hcc.1, hcc.2.1, ?_⟩
                intro hx
                exact hnl lr (List.mem_cons_of_mem l (skipSeparator_subset _ _ hlr))
                  (mem_of_mem_pyStrip (hcc.2.2 _ hx))
            · exact hrec_inv t h2
      · rw [if_neg hr] at hts
        exact ih ls' (fun x hx => hnl x (List.mem_cons_of_mem l hx)) ts hts

/-- Claim C6: reconstructing markdown from a parsed table whose rows all
have as many cells as the header, and re-parsing it, yields exactly that
table again. -/
theorem c6_table_roundtrip (content : PyStr) (t : TableBlock)
    (ht : t ∈ parseMarkdownTables content)
    (hrows : ∀ r ∈ t.rows, r.length = t.headers.length) :
    parseMarkdownTables (reconstructTableText t) = [t] := by
  have hnl : ∀ l ∈ splitLines content, Char.ofNat 10 ∉ l := by
    intro l hl
    exact splitOnChar_pieces_no_sep _ _ l hl
  obtain ⟨ts, hts⟩ : ∃ ts,
      parseTablesLoopF ((splitLines content).length + 1) (splitLines content) = some ts := by
    exact Option.isSome_iff_exists.mp
      (parseTablesLoopF_isSome ((splitLines content).length + 1) (splitLines content) (by omega))
  have htmem : t ∈ ts := by
    simp only [parseMarkdownTables] at ht
    rw [hts] at ht
    simpa using ht
  obtain ⟨hlen2, hrne, hhead, hrcells⟩ := parse_invariants _ _ hnl ts hts t htmem
  have hHne : t.headers ≠ [] := by
    intro he
    rw [he] at hlen2
    simp at hlen2
  have hrec : reconstructTableText t
      = joinLines (rowLineOf t.headers ::
          rowLineOf (t.headers.map (fun _ => "---".toList)) :: t.rows.map rowLineOf) := by
    unfold reconstructTableText
    rw [if_neg (by simpa [List.isEmpty_iff] using hHne)]
    rfl
  rw [hrec]
  have hLnl : ∀ l ∈ (rowLineOf t.headers ::
      rowLineOf (t.headers.map (fun _ => "---".toList)) :: t.rows.map rowLineOf),
      Char.ofNat 10 ∉ l := by
    intro l hl
    rcases List.mem_cons.mp hl with h1 | h2
    · rw [h1]
      exact rowLineOf_no_nl _ (fun c hc => (hhead c hc).2.2)
    · rcases List.mem_cons.mp h2 with h3 | h4
      · rw [h3]
        apply rowLineOf_no_nl
        intro c hc
        rcases List.mem_map.mp hc with ⟨x, _, hx⟩
        rw [← hx]
        decide
      · rcases List.mem_map.mp h4 with ⟨r, hr, hrl⟩
        rw [← hrl]
        exact rowLineOf_no_nl _ (fun c hc => (hrcells r hr c hc).2.2)
  have hsplit : splitLines (joinLines (rowLineOf t.headers ::
      rowLineOf (t.headers.map (fun _ => "---".toList)) :: t.rows.map rowLineOf))
      = rowLineOf t.headers ::
          rowLineOf (t.headers.map (fun _ => "---".toList)) :: t.rows.map rowLineOf :=
    splitLines_joinLines _ (by simp) hLnl
  unfold parseMarkdownTables
  rw [hsplit]
  simp only [List.length_cons]
  simp only [parseTablesLoopF]
  rw [pyStrip_rowLineOf t.headers]
  rw [rowLineOf_isTableRow t.headers hlen2]
  rw [if_pos rfl]
  simp only [skipSeparator]
  rw [isTableSepStr_sepLine t.headers hHne]
  rw [if_pos rfl]
  rw [grabRows_rowLines t.rows t.headers.length hlen2
    (fun r hr => ⟨hrows r hr,
      fun c hc => ⟨(hrcells r hr c hc).1, (hrcells r hr c hc).2.1⟩⟩)]
  simp only [parseTablesLoopF]
  rw [parseTableRow_rowLineOf t.headers hHne
    (fun c hc => (hhead c hc).2.1) (fun c hc => (hhead c hc).1)]
  rw [show t.rows.isEmpty = false by simpa [List.isEmpty_iff] using hrne]
  simp only [Bool.false_eq_true, if_false, Option.getD_some]

/-- Witness for C6 at a concrete two-column table. -/
theorem c6_witness :
    (⟨["a".toList, "b".toList], [["c".toList, "d".toList]]⟩ : TableBlock)
      ∈ parseMarkdownTables ("| a | b |\n|---|---|\n| c | d |".toList) ∧
    parseMarkdownTables (reconstructTableText
        (⟨["a".toList, "b".toList], [["c".toList, "d".toList]]⟩ : TableBlock))
      = [⟨["a".toList, "b".toList], [["c".toList, "d".toList]]⟩] := by
  refine ⟨by decide, ?_⟩
  apply c6_table_roundtrip ("| a | b |\n|---|---|\n| c | d |".toList) _ (by decide)
  intro r hr
  simp only [List.mem_singleton] at hr
  rw [hr]
  rfl
